import Mathlib

/-!
# SHA-256 (`sha256_cpp/sha256_kirtan.cpp`): embedding and verification

The C++ program is embedded function by function.

* A `std::uint32_t` is a `Nat` below `2^32`; every operation that wraps in C++
  is followed by an explicit `% 2^32`.
* A `std::bitset<8>` is a `Nat` below `2^8`.
* A `std::string` is the list of its `char`s, each given as a `Nat`;
  `static_cast<unsigned char>` is `% 256`.
* A `std::vector` is a `List`; `v[i] = x` is `List.set`, `v[i]` is
  `List.getD _ i 0`, `push_back` appends at the end.
* The `std::int64_t` length computations of `Padding` are carried out in `Nat`.
  They are exact whenever `8 * L + 575 < 2^63`, which holds for every string
  shorter than `2^60 - 71` bytes.
-/

namespace Sha256

/-! ## Helper functions (source lines 8-18) -/

/-- Source line 8: `(num >> num_shift) | (num << (32 - num_shift))` on `uint32_t`.
The left shift drops the bits above bit 31. -/
def rotr (num num_shift : Nat) : Nat :=
  (num >>> num_shift) ||| ((num <<< (32 - num_shift)) % 2 ^ 32)

/-- Source line 11. -/
def small_sigma0 (x : Nat) : Nat := rotr x 7 ^^^ rotr x 18 ^^^ (x >>> 3)

/-- Source line 12. -/
def small_sigma1 (x : Nat) : Nat := rotr x 17 ^^^ rotr x 19 ^^^ (x >>> 10)

/-- Source line 13. -/
def big_sigma0 (x : Nat) : Nat := rotr x 2 ^^^ rotr x 13 ^^^ rotr x 22

/-- Source line 14. -/
def big_sigma1 (x : Nat) : Nat := rotr x 6 ^^^ rotr x 11 ^^^ rotr x 25

/-- Bitwise complement `~x` of a `uint32_t`. -/
def not32 (x : Nat) : Nat := 0xFFFFFFFF - x % 2 ^ 32

/-- Source line 17: `(decison & choice1) ^ (~decison & choice0)`. -/
def choice (decison choice1 choice0 : Nat) : Nat :=
  (decison &&& choice1) ^^^ (not32 decison &&& choice0)

/-- Source line 18. -/
def majority (x y z : Nat) : Nat := (x &&& y) ^^^ (x &&& z) ^^^ (y &&& z)

/-! ## Constant tables (source lines 21-40) -/

/-- Source lines 21-26. -/
def InitializeHashValues : List Nat :=
  [0x6a09e667, 0xbb67ae85, 0x3c6ef372, 0xa54ff53a,
   0x510e527f, 0x9b05688c, 0x1f83d9ab, 0x5be0cd19]

/-- Source lines 29-40, one list per source line. -/
def InitializeConstants : List Nat :=
  [0x428a2f98, 0x71374491, 0xb5c0fbcf, 0xe9b5dba5, 0x3956c25b, 0x59f111f1, 0x923f82a4, 0xab1c5ed5] ++
  [0xd807aa98, 0x12835b01, 0x243185be, 0x550c7dc3, 0x72be5d74, 0x80deb1fe, 0x9bdc06a7, 0xc19bf174] ++
  [0xe49b69c1, 0xefbe4786, 0x0fc19dc6, 0x240ca1cc, 0x2de92c6f, 0x4a7484aa, 0x5cb0a9dc, 0x76f988da] ++
  [0x983e5152, 0xa831c66d, 0xb00327c8, 0xbf597fc7, 0xc6e00bf3, 0xd5a79147, 0x06ca6351, 0x14292967] ++
  [0x27b70a85, 0x2e1b2138, 0x4d2c6dfc, 0x53380d13, 0x650a7354, 0x766a0abb, 0x81c2c92e, 0x92722c85] ++
  [0xa2bfe8a1, 0xa81a664b, 0xc24b8b70, 0xc76c51a3, 0xd192e819, 0xd6990624, 0xf40e3585, 0x106aa070] ++
  [0x19a4c116, 0x1e376c08, 0x2748774c, 0x34b0bcb5, 0x391c0cb3, 0x4ed8aa4a, 0x5b9cca4f, 0x682e6ff3] ++
  [0x748f82ee, 0x78a5636f, 0x84c87814, 0x8cc70208, 0x90befffa, 0xa4506ceb, 0xbef9a3f7, 0xc67178f2]

/-! ## Padding (source lines 43-63) -/

/-- Source lines 50-52: the loop copying the message bytes into the buffer. -/
def copyMessage (input padded : List Nat) : List Nat :=
  (List.range input.length).foldl (fun p i => p.set i (input.getD i 0 % 256)) padded

/-- Source lines 58-60: the loop writing the eight length bytes.
`padded.size()` is read afresh in every iteration. -/
def writeLength (input_bits : Nat) (padded : List Nat) : List Nat :=
  (List.range 8).foldl
    (fun p i => p.set (p.length - 8 + i) ((input_bits >>> (8 * (7 - i))) &&& 0xFF)) padded

/-- Source lines 43-63. -/
def Padding (input : List Nat) : List Nat :=
  let input_length := input.length
  let input_bits := input_length * 8
  let padded_bits := ((input_bits + 64 + 511) / 512) * 512
  let padded := List.replicate (padded_bits / 8) 0
  let padded := copyMessage input padded
  let padded := padded.set input_length 0x80
  writeLength input_bits padded

/-! ## Segmentation (source lines 66-79) -/

/-- Source lines 72-73: word `j` of the block starting at byte `i`, stored in a
`uint32_t`. -/
def blockWord (padded : List Nat) (i j : Nat) : Nat :=
  ((padded.getD (i + j * 4) 0 <<< 24) ||| (padded.getD (i + j * 4 + 1) 0 <<< 16) |||
    (padded.getD (i + j * 4 + 2) 0 <<< 8) ||| padded.getD (i + j * 4 + 3) 0) % 2 ^ 32

/-- Source lines 66-79: the outer loop runs for `i = 0, 64, 128, ...` while
`i < padded.size()`, the inner loop for `j = 0 .. 15`. -/
def SegmentToBlocks (padded : List Nat) : List (List Nat) :=
  (List.range ((padded.length + 63) / 64)).map
    (fun n => (List.range 16).map (fun j => blockWord padded (n * 64) j))

/-! ## Message schedule (source lines 82-90) -/

/-- Source lines 85-87: one iteration of the inner loop, for `i = k + 16`. -/
def scheduleStep (block : List Nat) (k : Nat) : List Nat :=
  let i := k + 16
  let s0 := small_sigma0 (block.getD (i - 15) 0)
  let s1 := small_sigma1 (block.getD (i - 2) 0)
  block ++ [((block.getD (i - 16) 0 + s0 + block.getD (i - 7) 0 + s1) % 2 ^ 32) &&& 0xFFFFFFFF]

/-- Source lines 84-88: the inner loop, `i = 16 .. 63`. -/
def extendBlock (block : List Nat) : List Nat :=
  (List.range 48).foldl scheduleStep block

/-- Source lines 82-90. -/
def MessageSchedule (blocks : List (List Nat)) : List (List Nat) :=
  blocks.map extendBlock

/-! ## Compression (source lines 93-121) -/

/-- The working variables `a .. h`. -/
structure Working where
  a : Nat
  b : Nat
  c : Nat
  d : Nat
  e : Nat
  f : Nat
  g : Nat
  h : Nat
deriving DecidableEq, Repr

/-- Source lines 99-108: round `i`. -/
def round (K block : List Nat) (v : Working) (i : Nat) : Working :=
  let T1 := (v.h + big_sigma1 v.e + choice v.e v.f v.g + K.getD i 0 + block.getD i 0) % 2 ^ 32
  let T2 := (big_sigma0 v.a + majority v.a v.b v.c) % 2 ^ 32
  { h := v.g
    g := v.f
    f := v.e
    e := ((v.d + T1) % 2 ^ 32) &&& 0xFFFFFFFF
    d := v.c
    c := v.b
    b := v.a
    a := ((T1 + T2) % 2 ^ 32) &&& 0xFFFFFFFF }

/-- Source lines 95-119: the body of the loop over the blocks. -/
def compressBlock (K H block : List Nat) : List Nat :=
  let v0 : Working :=
    { a := H.getD 0 0, b := H.getD 1 0, c := H.getD 2 0, d := H.getD 3 0,
      e := H.getD 4 0, f := H.getD 5 0, g := H.getD 6 0, h := H.getD 7 0 }
  let v := (List.range 64).foldl (round K block) v0
  let H := H.set 0 (((H.getD 0 0 + v.a) % 2 ^ 32) &&& 0xFFFFFFFF)
  let H := H.set 1 (((H.getD 1 0 + v.b) % 2 ^ 32) &&& 0xFFFFFFFF)
  let H := H.set 2 (((H.getD 2 0 + v.c) % 2 ^ 32) &&& 0xFFFFFFFF)
  let H := H.set 3 (((H.getD 3 0 + v.d) % 2 ^ 32) &&& 0xFFFFFFFF)
  let H := H.set 4 (((H.getD 4 0 + v.e) % 2 ^ 32) &&& 0xFFFFFFFF)
  let H := H.set 5 (((H.getD 5 0 + v.f) % 2 ^ 32) &&& 0xFFFFFFFF)
  let H := H.set 6 (((H.getD 6 0 + v.g) % 2 ^ 32) &&& 0xFFFFFFFF)
  H.set 7 (((H.getD 7 0 + v.h) % 2 ^ 32) &&& 0xFFFFFFFF)

/-- Source lines 93-121: `H` is updated in place, once per block, in block order;
the result is the final `H`. -/
def Compression (H K : List Nat) (blocks : List (List Nat)) : List Nat :=
  blocks.foldl (compressBlock K) H

/-! ## Top level (source lines 124-140) -/

/-- The character `printf` writes for one hexadecimal digit under `%x`. -/
def xdigit (d : Nat) : Char := "0123456789abcdef".data.getD d '0'

/-- Hexadecimal digits of `n` as `printf` produces them for `%x`: lowercase, most
significant first, no leading zeros, and `"0"` for zero. -/
def hexDigits : Nat → Nat → List Char → List Char
  | 0, _, acc => acc
  | fuel + 1, n, acc =>
    let acc := xdigit (n % 16) :: acc
    if n / 16 = 0 then acc else hexDigits fuel (n / 16) acc

/-- Source line 136: `snprintf(buffer, 9, "%08x", h)` for a `uint32_t` `h`:
the hexadecimal digits of `h`, padded on the left with `'0'` to a width of 8.
A 32-bit value has at most 8 digits, so the 9-byte buffer never truncates. -/
def format08x (h : Nat) : List Char :=
  let ds := hexDigits 8 (h % 2 ^ 32) []
  List.replicate (8 - ds.length) '0' ++ ds

/-- The hash state after `Compression` in `SHA256` (source lines 125-130). -/
def finalState (input : List Nat) : List Nat :=
  let H := InitializeHashValues
  let K := InitializeConstants
  let padded_message := Padding input
  let blocks := SegmentToBlocks padded_message
  let blocks := MessageSchedule blocks
  Compression H K blocks

/-- Source lines 124-140. -/
def SHA256 (input : List Nat) : String :=
  let H := finalState input
  H.foldl (fun hash h => hash ++ String.mk (format08x h)) ""

/-! ## Reference: SHA-256 as FIPS 180-4 states it

Written from the standard, not from the program: arithmetic rotation, the
padding rule of section 5.1.1, the parsing of section 5.2.1, the hash
computation of section 6.2.2 and the big-endian digest bytes. -/

namespace Fips

/-- Addition modulo `2^32` (FIPS 180-4, section 3.2). -/
def add32 (x y : Nat) : Nat := (x + y) % 2 ^ 32

/-- Circular right shift `ROTR^n(x)` of a 32-bit word, arithmetically: the low
`n` bits move to the top. -/
def ROTR (n x : Nat) : Nat := x / 2 ^ n + (x % 2 ^ n) * 2 ^ (32 - n)

/-- Right shift `SHR^n(x)`. -/
def SHR (n x : Nat) : Nat := x / 2 ^ n

/-- Function `Ch(x, y, z)` (4.2). -/
def Ch (x y z : Nat) : Nat := (x &&& y) ^^^ ((2 ^ 32 - 1 - x) &&& z)

/-- Function `Maj(x, y, z)` (4.3). -/
def Maj (x y z : Nat) : Nat := (x &&& y) ^^^ (x &&& z) ^^^ (y &&& z)

/-- Function `Sigma_0^{256}` (4.4). -/
def bigSigma0 (x : Nat) : Nat := ROTR 2 x ^^^ ROTR 13 x ^^^ ROTR 22 x

/-- Function `Sigma_1^{256}` (4.5). -/
def bigSigma1 (x : Nat) : Nat := ROTR 6 x ^^^ ROTR 11 x ^^^ ROTR 25 x

/-- Function `sigma_0^{256}` (4.6). -/
def smallSigma0 (x : Nat) : Nat := ROTR 7 x ^^^ ROTR 18 x ^^^ SHR 3 x

/-- Function `sigma_1^{256}` (4.7). -/
def smallSigma1 (x : Nat) : Nat := ROTR 17 x ^^^ ROTR 19 x ^^^ SHR 10 x

/-- The constants `K_0 .. K_63` (4.2.2), eight per row. -/
def K : List Nat :=
  [0x428a2f98, 0x71374491, 0xb5c0fbcf, 0xe9b5dba5, 0x3956c25b, 0x59f111f1, 0x923f82a4, 0xab1c5ed5] ++
  [0xd807aa98, 0x12835b01, 0x243185be, 0x550c7dc3, 0x72be5d74, 0x80deb1fe, 0x9bdc06a7, 0xc19bf174] ++
  [0xe49b69c1, 0xefbe4786, 0x0fc19dc6, 0x240ca1cc, 0x2de92c6f, 0x4a7484aa, 0x5cb0a9dc, 0x76f988da] ++
  [0x983e5152, 0xa831c66d, 0xb00327c8, 0xbf597fc7, 0xc6e00bf3, 0xd5a79147, 0x06ca6351, 0x14292967] ++
  [0x27b70a85, 0x2e1b2138, 0x4d2c6dfc, 0x53380d13, 0x650a7354, 0x766a0abb, 0x81c2c92e, 0x92722c85] ++
  [0xa2bfe8a1, 0xa81a664b, 0xc24b8b70, 0xc76c51a3, 0xd192e819, 0xd6990624, 0xf40e3585, 0x106aa070] ++
  [0x19a4c116, 0x1e376c08, 0x2748774c, 0x34b0bcb5, 0x391c0cb3, 0x4ed8aa4a, 0x5b9cca4f, 0x682e6ff3] ++
  [0x748f82ee, 0x78a5636f, 0x84c87814, 0x8cc70208, 0x90befffa, 0xa4506ceb, 0xbef9a3f7, 0xc67178f2]

/-- The initial hash value `H^(0)` (5.3.3). -/
def H0 : List Nat :=
  [0x6a09e667, 0xbb67ae85, 0x3c6ef372, 0xa54ff53a,
   0x510e527f, 0x9b05688c, 0x1f83d9ab, 0x5be0cd19]

/-- The number of zero bytes after the `0x80` byte: the least `k` with
`(L + 1 + k) % 64 = 56`. -/
def zeroCount (L : Nat) : Nat := (119 - L % 64) % 64

/-- The 8 bytes of the big-endian 64-bit encoding of `n`. -/
def be64 (n : Nat) : List Nat :=
  [n / 2 ^ 56 % 256, n / 2 ^ 48 % 256, n / 2 ^ 40 % 256, n / 2 ^ 32 % 256,
   n / 2 ^ 24 % 256, n / 2 ^ 16 % 256, n / 2 ^ 8 % 256, n % 256]

/-- Padding (5.1.1) of a message of whole bytes: the byte `0x80`, then
`zeroCount` zero bytes, then the bit length as a 64-bit big-endian integer. -/
def pad (M : List Nat) : List Nat :=
  M.map (fun c => c % 256) ++ [0x80] ++ List.replicate (zeroCount M.length) 0 ++
    be64 (8 * M.length)

/-- Parsing (5.2.1): the `i`-th 64-byte block of the padded message. -/
def block (padded : List Nat) (i : Nat) : List Nat := (padded.drop (64 * i)).take 64

/-- The 32-bit big-endian word made of four bytes. -/
def beWord : List Nat → Nat
  | [b0, b1, b2, b3] => b0 * 2 ^ 24 + b1 * 2 ^ 16 + b2 * 2 ^ 8 + b3
  | _ => 0

/-- The sixteen words `M_0 .. M_15` of a 64-byte block. -/
def blockWords (blk : List Nat) : List Nat :=
  (List.range 16).map (fun t => beWord ((blk.drop (4 * t)).take 4))

/-- Step 1 of 6.2.2: extends `W_0 .. W_{t-1}` by `n` further words, each
`sigma_1(W_{t-2}) + W_{t-7} + sigma_0(W_{t-15}) + W_{t-16}`. -/
def expand : Nat → List Nat → List Nat
  | 0, W => W
  | n + 1, W =>
    let t := W.length
    expand n (W ++ [add32 (add32 (add32 (smallSigma1 (W.getD (t - 2) 0)) (W.getD (t - 7) 0))
      (smallSigma0 (W.getD (t - 15) 0))) (W.getD (t - 16) 0)])

/-- The message schedule `W_0 .. W_63` of a block. -/
def schedule (blk : List Nat) : List Nat := expand 48 (blockWords blk)

/-- Step 3 of 6.2.2 for one `t`, given `(K_t, W_t)`; the working variables
are the list `[a, b, c, d, e, f, g, h]`. -/
def step (v : List Nat) (kw : Nat × Nat) : List Nat :=
  match v with
  | [a, b, c, d, e, f, g, h] =>
    let T1 := add32 (add32 (add32 (add32 h (bigSigma1 e)) (Ch e f g)) kw.1) kw.2
    let T2 := add32 (bigSigma0 a) (Maj a b c)
    [add32 T1 T2, a, b, c, add32 d T1, e, f, g]
  | _ => v

/-- Steps 1 to 4 of 6.2.2: the hash value after one more block. -/
def compress (H blk : List Nat) : List Nat :=
  List.zipWith add32 ((K.zip (schedule blk)).foldl step H) H

/-- The hash value `H^(N)`: `compress` folded over the blocks of the padded
message, from `H^(0)`. -/
def hash (M : List Nat) : List Nat :=
  let padded := pad M
  ((List.range (padded.length / 64)).map (block padded)).foldl compress H0

/-- The 32 bytes of the digest: the eight words of `H^(N)`, each big-endian. -/
def digest (M : List Nat) : List Nat :=
  (hash M).flatMap (fun w => [w / 2 ^ 24 % 256, w / 2 ^ 16 % 256, w / 2 ^ 8 % 256, w % 256])

/-- The lowercase hexadecimal digit of a value below 16. -/
def hexChar (d : Nat) : Char :=
  if d < 10 then Char.ofNat (48 + d) else Char.ofNat (87 + d)

/-- Lowercase hexadecimal rendering of a byte string, two characters per byte,
most significant nibble first. -/
def hex (bytes : List Nat) : String :=
  String.mk (bytes.flatMap (fun b => [hexChar (b / 16), hexChar (b % 16)]))

end Fips

/-! ## Test messages and the length formula of the specification -/

/-- The bytes of an ASCII string literal, as a `std::string` holds them. -/
def bytesOf (s : String) : List Nat := s.data.map Char.toNat

/-- The 56-byte (448-bit) message of the two-block example of FIPS 180-4. -/
def twoBlockMessage : List Nat :=
  bytesOf "abcdbcdecdefdefgefghfghighijhijkijkljklmklmnlmnomnopnopq"

/-- The message made of `n` copies of the byte `'a'`. -/
def aaa (n : Nat) : List Nat := List.replicate n 97

/-- The padded length in bytes as the specification writes it,
`ceil((L*8 + 1 + 64) / 512) * 512 / 8`, the ceiling of `x / 512` being
`(x + 511) / 512`. -/
def specPaddedLength (L : Nat) : Nat := (L * 8 + 1 + 64 + 511) / 512 * 512 / 8

/-! ## Notions used by the statements -/

/-- The number of set bits of `x` among the bit positions `0 .. 31`. -/
def popcount32 (x : Nat) : Nat :=
  (Finset.univ.filter (fun i : Fin 32 => x.testBit i.val = true)).card

/-- The eight working variables are 32-bit words. -/
def Working.IsWord32 (v : Working) : Prop :=
  v.a < 2 ^ 32 ∧ v.b < 2 ^ 32 ∧ v.c < 2 ^ 32 ∧ v.d < 2 ^ 32 ∧
    v.e < 2 ^ 32 ∧ v.f < 2 ^ 32 ∧ v.g < 2 ^ 32 ∧ v.h < 2 ^ 32

/-- The working variables as the list `[a, b, c, d, e, f, g, h]`. -/
def Working.toList (v : Working) : List Nat := [v.a, v.b, v.c, v.d, v.e, v.f, v.g, v.h]

/-! ## The program with every index checked

The same functions once more, with each `v[i]` of the source guarded: a read
or a write outside the vector gives `none`. -/

namespace Checked

/-- Checked `v[i] = x`. -/
def writeAt (v : List Nat) (i x : Nat) : Option (List Nat) :=
  if i < v.length then some (v.set i x) else none

/-- Source lines 43-63 with `padded[i]`, `padded[input_length]` and
`padded[padded.size() - 8 + i]` checked; `padded.size() - 8` is unsigned, so a
buffer of fewer than 8 bytes puts the index out of range. -/
def Padding (input : List Nat) : Option (List Nat) := do
  let input_length := input.length
  let input_bits := input_length * 8
  let padded_bits := ((input_bits + 64 + 511) / 512) * 512
  let padded := List.replicate (padded_bits / 8) 0
  let padded ← (List.range input_length).foldlM
    (fun p i => do
      let c ← input[i]?
      writeAt p i (c % 256)) padded
  let padded ← writeAt padded input_length 0x80
  (List.range 8).foldlM
    (fun p i =>
      if p.length < 8 then none
      else writeAt p (p.length - 8 + i) ((input_bits >>> (8 * (7 - i))) &&& 0xFF)) padded

/-- Source lines 72-73 with the four reads of `padded` checked. -/
def blockWord (padded : List Nat) (i j : Nat) : Option Nat := do
  let b0 ← padded[i + j * 4]?
  let b1 ← padded[i + j * 4 + 1]?
  let b2 ← padded[i + j * 4 + 2]?
  let b3 ← padded[i + j * 4 + 3]?
  pure (((b0 <<< 24) ||| (b1 <<< 16) ||| (b2 <<< 8) ||| b3) % 2 ^ 32)

/-- Source lines 66-79 with checked reads. -/
def SegmentToBlocks (padded : List Nat) : Option (List (List Nat)) :=
  (List.range ((padded.length + 63) / 64)).mapM
    (fun n => (List.range 16).mapM (fun j => blockWord padded (n * 64) j))

/-- Source lines 85-87 with `block[i - 16]`, `block[i - 15]`, `block[i - 7]`
and `block[i - 2]` checked. -/
def scheduleStep (block : List Nat) (k : Nat) : Option (List Nat) := do
  let i := k + 16
  let w15 ← block[i - 15]?
  let w2 ← block[i - 2]?
  let w16 ← block[i - 16]?
  let w7 ← block[i - 7]?
  pure (block ++ [((w16 + small_sigma0 w15 + w7 + small_sigma1 w2) % 2 ^ 32) &&& 0xFFFFFFFF])

/-- Source lines 82-90 with checked reads. -/
def MessageSchedule (blocks : List (List Nat)) : Option (List (List Nat)) :=
  blocks.mapM (fun block => (List.range 48).foldlM scheduleStep block)

/-- Source lines 99-108 with `K[i]` and `block[i]` checked. -/
def round (K block : List Nat) (v : Working) (i : Nat) : Option Working := do
  let k ← K[i]?
  let w ← block[i]?
  let T1 := (v.h + big_sigma1 v.e + choice v.e v.f v.g + k + w) % 2 ^ 32
  let T2 := (big_sigma0 v.a + majority v.a v.b v.c) % 2 ^ 32
  pure { h := v.g
         g := v.f
         f := v.e
         e := ((v.d + T1) % 2 ^ 32) &&& 0xFFFFFFFF
         d := v.c
         c := v.b
         b := v.a
         a := ((T1 + T2) % 2 ^ 32) &&& 0xFFFFFFFF }

/-- Source lines 112-119: checked `H[j] = (H[j] + x) & 0xFFFFFFFF`. -/
def addAt (H : List Nat) (j x : Nat) : Option (List Nat) := do
  let hj ← H[j]?
  writeAt H j (((hj + x) % 2 ^ 32) &&& 0xFFFFFFFF)

/-- Source lines 95-119 with `H[0] .. H[7]`, `K[i]` and `block[i]` checked. -/
def compressBlock (K H block : List Nat) : Option (List Nat) := do
  let a ← H[0]?
  let b ← H[1]?
  let c ← H[2]?
  let d ← H[3]?
  let e ← H[4]?
  let f ← H[5]?
  let g ← H[6]?
  let h ← H[7]?
  let v ← (List.range 64).foldlM (round K block) ⟨a, b, c, d, e, f, g, h⟩
  let H ← addAt H 0 v.a
  let H ← addAt H 1 v.b
  let H ← addAt H 2 v.c
  let H ← addAt H 3 v.d
  let H ← addAt H 4 v.e
  let H ← addAt H 5 v.f
  let H ← addAt H 6 v.g
  addAt H 7 v.h

/-- Source lines 93-121 with checked reads and writes. -/
def Compression (H K : List Nat) (blocks : List (List Nat)) : Option (List Nat) :=
  blocks.foldlM (compressBlock K) H

/-- Source lines 124-140 on the checked functions. -/
def SHA256 (input : List Nat) : Option String := do
  let H := InitializeHashValues
  let K := InitializeConstants
  let padded_message ← Padding input
  let blocks ← SegmentToBlocks padded_message
  let blocks ← MessageSchedule blocks
  let H ← Compression H K blocks
  pure (H.foldl (fun hash h => hash ++ String.mk (format08x h)) "")

end Checked

/-! ## The first primes and integer roots -/

/-- The first 64 primes, in increasing order. -/
def primes64 : List Nat :=
  [2, 3, 5, 7, 11, 13, 17, 19, 23, 29, 31, 37, 41, 43, 47, 53, 59, 61, 67, 71, 73, 79, 83, 89,
   97, 101, 103, 107, 109, 113, 127, 131, 137, 139, 149, 151, 157, 163, 167, 173, 179, 181, 191,
   193, 197, 199, 211, 223, 227, 229, 233, 239, 241, 251, 257, 263, 269, 271, 277, 281, 283, 293,
   307, 311]

/-- Bit by bit search, from bit `b - 1` down to bit 0, of the largest `r` with
`r ^ k ≤ x`, starting from `r`. -/
def rootBits (k x : Nat) : Nat → Nat → Nat
  | 0, r => r
  | b + 1, r => rootBits k x b (if (r + 2 ^ b) ^ k ≤ x then r + 2 ^ b else r)

/-- The floor of the `k`-th root of `x`, for roots below `2^64`. -/
def intRoot (k x : Nat) : Nat := rootBits k x 64 0

/-- The one block of the message `"abc"`, as `SegmentToBlocks` returns it. -/
def abcBlocks : List (List Nat) := SegmentToBlocks (Padding (bytesOf "abc"))

/-- The initial hash values as working variables. -/
def initialWorking : Working :=
  ⟨0x6a09e667, 0xbb67ae85, 0x3c6ef372, 0xa54ff53a, 0x510e527f, 0x9b05688c, 0x1f83d9ab,
    0x5be0cd19⟩

/-! ## Lemmas on `Padding` -/

theorem getD_set_nat (p : List Nat) (i j x : Nat) :
    (p.set i x).getD j 0 = if i = j ∧ j < p.length then x else p.getD j 0 := by
  simp only [List.getD_eq_getElem?_getD, List.getElem?_set]
  by_cases h1 : i = j
  · subst h1
    by_cases h2 : i < p.length
    · simp [h2]
    · simp [h2]
      have : p.length ≤ i := by omega
      simp [List.getElem?_eq_none this]
  · simp [h1]

theorem setLoop_length (base : Nat) (g : Nat → Nat) (k : Nat) (p : List Nat) :
    ((List.range k).foldl (fun q i => q.set (base + i) (g i)) p).length = p.length := by
  induction k with
  | zero => simp
  | succ k ih => simp [List.range_succ, List.foldl_append, ih]

theorem setLoop_getD (base : Nat) (g : Nat → Nat) (k : Nat) (p : List Nat) (j : Nat) :
    ((List.range k).foldl (fun q i => q.set (base + i) (g i)) p).getD j 0 =
      if base ≤ j ∧ j < base + k ∧ j < p.length then g (j - base) else p.getD j 0 := by
  induction k with
  | zero =>
    have h0 : ¬ (base ≤ j ∧ j < base + 0 ∧ j < p.length) := by omega
    rw [if_neg h0]
    rfl
  | succ k ih =>
    simp only [List.range_succ, List.foldl_append, List.foldl_cons, List.foldl_nil]
    rw [getD_set_nat, setLoop_length, ih]
    by_cases h1 : base + k = j
    · subst h1
      by_cases h2 : base + k < p.length
      · have : base ≤ base + k ∧ base + k < base + (k + 1) ∧ base + k < p.length := by omega
        simp [h2, this]
      · have h3 : ¬ (base ≤ base + k ∧ base + k < base + (k + 1) ∧ base + k < p.length) := by omega
        have h4 : ¬ (base ≤ base + k ∧ base + k < base + k ∧ base + k < p.length) := by omega
        rw [if_neg h3, if_neg (by omega), if_neg h4]
    · rw [if_neg (by omega)]
      by_cases h2 : base ≤ j ∧ j < base + k ∧ j < p.length
      · rw [if_pos h2, if_pos (by omega)]
      · rw [if_neg h2, if_neg (by omega)]

theorem copyMessage_length (input p : List Nat) : (copyMessage input p).length = p.length := by
  have h := setLoop_length 0 (fun i => input.getD i 0 % 256) input.length p
  simpa [copyMessage] using h

theorem copyMessage_getD (input p : List Nat) (j : Nat) :
    (copyMessage input p).getD j 0 =
      if j < input.length ∧ j < p.length then input.getD j 0 % 256 else p.getD j 0 := by
  have h := setLoop_getD 0 (fun i => input.getD i 0 % 256) input.length p j
  simpa [copyMessage] using h

theorem lengthLoop_fixed (g : Nat → Nat) (l : List Nat) (p : List Nat) :
    l.foldl (fun q i => q.set (q.length - 8 + i) (g i)) p =
      l.foldl (fun q i => q.set (p.length - 8 + i) (g i)) p := by
  induction l generalizing p with
  | nil => rfl
  | cons a l ih =>
    simp only [List.foldl_cons]
    rw [ih]
    simp

theorem writeLength_length (y : Nat) (p : List Nat) : (writeLength y p).length = p.length := by
  unfold writeLength
  rw [lengthLoop_fixed, setLoop_length]

theorem writeLength_getD (y : Nat) (p : List Nat) (j : Nat) (hp : 8 ≤ p.length) :
    (writeLength y p).getD j 0 =
      if p.length - 8 ≤ j ∧ j < p.length then (y >>> (8 * (7 - (j - (p.length - 8))))) &&& 0xFF
      else p.getD j 0 := by
  unfold writeLength
  rw [lengthLoop_fixed, setLoop_getD]
  by_cases h : p.length - 8 ≤ j ∧ j < p.length
  · rw [if_pos h, if_pos (by omega)]
  · rw [if_neg h, if_neg (by omega)]

/-- The size of the buffer allocated at source line 47. -/
theorem Padding_length (M : List Nat) :
    (Padding M).length = (M.length * 8 + 64 + 511) / 512 * 512 / 8 := by
  simp [Padding, writeLength_length, copyMessage_length]

theorem Padding_length_ge (M : List Nat) : M.length + 8 ≤ (Padding M).length := by
  rw [Padding_length]; omega

theorem Padding_getD (M : List Nat) (j : Nat) :
    (Padding M).getD j 0 =
      if (Padding M).length - 8 ≤ j ∧ j < (Padding M).length then
        ((M.length * 8) >>> (8 * (7 - (j - ((Padding M).length - 8))))) &&& 0xFF
      else if j = M.length then 0x80
      else if j < M.length then M.getD j 0 % 256
      else 0 := by
  have hlen := Padding_length_ge M
  have hl := Padding_length M
  rw [hl] at hlen ⊢
  unfold Padding
  simp only []
  rw [writeLength_getD, getD_set_nat, copyMessage_getD]
  all_goals simp only [List.length_set, copyMessage_length, List.length_replicate]
  · by_cases h : (M.length * 8 + 64 + 511) / 512 * 512 / 8 - 8 ≤ j ∧ j < (M.length * 8 + 64 + 511) / 512 * 512 / 8
    · rw [if_pos h, if_pos h]
    · rw [if_neg h, if_neg h]
      by_cases h1 : j = M.length
      · have h1a : M.length = j ∧ j < (M.length * 8 + 64 + 511) / 512 * 512 / 8 := by omega
        rw [if_pos h1a, if_pos h1]
      · have h1a : ¬ (M.length = j ∧ j < (M.length * 8 + 64 + 511) / 512 * 512 / 8) := by omega
        rw [if_neg h1a, if_neg h1]
        by_cases h2 : j < M.length
        · have h2a : j < M.length ∧ j < (M.length * 8 + 64 + 511) / 512 * 512 / 8 := by omega
          rw [if_pos h2a, if_pos h2]
        · have h2a : ¬ (j < M.length ∧ j < (M.length * 8 + 64 + 511) / 512 * 512 / 8) := by omega
          rw [if_neg h2a, if_neg h2]
          simp only [List.getD_eq_getElem?_getD, List.getElem?_replicate]
          split <;> rfl
  · omega

theorem Padding_lengthByte (M : List Nat) (i : Nat) (hi : i < 8) :
    (Padding M).getD ((Padding M).length - 8 + i) 0 = M.length * 8 / 2 ^ (8 * (7 - i)) % 256 := by
  have hlen := Padding_length_ge M
  have hc : (Padding M).length - 8 ≤ (Padding M).length - 8 + i ∧
      (Padding M).length - 8 + i < (Padding M).length := by omega
  have h255 : (255 : Nat) = 2 ^ 8 - 1 := by norm_num
  rw [Padding_getD, if_pos hc, Nat.add_sub_cancel_left, Nat.shiftRight_eq_div_pow, h255,
    Nat.and_pow_two_sub_one_eq_mod]

/-! ## Lemmas on the digest string -/

theorem nibble_mod (h k : Nat) (hk : k ≤ 7) : h % 2 ^ 32 / 16 ^ k % 16 = h / 16 ^ k % 16 := by
  have e : 2 ^ 32 = 16 ^ k * 16 ^ (8 - k) := by
    rw [← pow_add, show k + (8 - k) = 8 by omega]; norm_num
  rw [e, Nat.mod_mul_right_div_self]
  apply Nat.mod_mod_of_dvd
  exact dvd_pow_self 16 (by omega)

theorem hexDigits_pad (x : Nat) (hx : x < 2 ^ 32) :
    List.replicate (8 - (hexDigits 8 x []).length) '0' ++ hexDigits 8 x [] =
      (List.range 8).map (fun k => xdigit (x / 16 ^ (7 - k) % 16)) := by
  have z : xdigit 0 = '0' := rfl
  have hr : (List.range 8).map (fun k => xdigit (x / 16 ^ (7 - k) % 16)) =
      [xdigit (x / 16 / 16 / 16 / 16 / 16 / 16 / 16 % 16),
       xdigit (x / 16 / 16 / 16 / 16 / 16 / 16 % 16),
       xdigit (x / 16 / 16 / 16 / 16 / 16 % 16), xdigit (x / 16 / 16 / 16 / 16 % 16),
       xdigit (x / 16 / 16 / 16 % 16), xdigit (x / 16 / 16 % 16), xdigit (x / 16 % 16),
       xdigit (x % 16)] := by
    simp only [List.range, List.range.loop, List.map, Nat.sub_zero, Nat.pow_zero, Nat.div_one,
      Nat.div_div_eq_div_mul]
    norm_num only
    rw [Nat.div_one]
  rw [hr]
  simp only [hexDigits]
  split_ifs with h1 h2 h3 h4 h5 h6 h7 h8
  · simp [h1, z, List.replicate]
  · simp [h2, z, List.replicate]
  · simp [h3, z, List.replicate]
  · simp [h4, z, List.replicate]
  · simp [h5, z, List.replicate]
  · simp [h6, z, List.replicate]
  · simp [h7, z, List.replicate]
  · simp [List.replicate]
  · omega

theorem format08x_eq (h : Nat) :
    format08x h = (List.range 8).map (fun k => xdigit (h / 16 ^ (7 - k) % 16)) := by
  have hx : h % 2 ^ 32 < 2 ^ 32 := Nat.mod_lt _ (by norm_num)
  unfold format08x
  simp only []
  rw [hexDigits_pad _ hx]
  apply List.map_congr_left
  intro k hk
  rw [nibble_mod h (7 - k) (by omega)]

theorem hashLoop_data (H : List Nat) (acc : String) :
    (H.foldl (fun hash h => hash ++ String.mk (format08x h)) acc).data =
      acc.data ++ H.flatMap format08x := by
  induction H generalizing acc with
  | nil => simp
  | cons w H ih => simp [ih, String.data_append]

theorem SHA256_data (M : List Nat) : (SHA256 M).data = (finalState M).flatMap format08x := by
  simp [SHA256, hashLoop_data]

theorem compressBlock_length (K H block : List Nat) :
    (compressBlock K H block).length = H.length := by
  simp [compressBlock]

theorem Compression_length (H K : List Nat) (blocks : List (List Nat)) :
    (Compression H K blocks).length = H.length := by
  unfold Compression
  induction blocks generalizing H with
  | nil => rfl
  | cons b bs ih => rw [List.foldl_cons, ih, compressBlock_length]

theorem finalState_length (M : List Nat) : (finalState M).length = 8 := by
  simp [finalState, Compression_length, InitializeHashValues]

theorem format08x_length (h : Nat) : (format08x h).length = 8 := by
  rw [format08x_eq]; simp

theorem xdigit_mem (d : Nat) (hd : d < 16) : xdigit d ∈ "0123456789abcdef".data := by
  interval_cases d <;> decide

theorem flatMap_length_const {α β : Type} (f : α → List β) (n : Nat)
    (hf : ∀ a, (f a).length = n) (l : List α) : (l.flatMap f).length = l.length * n := by
  induction l with
  | nil => simp
  | cons a l ih => simp [List.flatMap_cons, ih, hf, Nat.succ_mul, Nat.add_comm]

theorem hexChar_eq_xdigit (d : Nat) (hd : d < 16) : Fips.hexChar d = xdigit d := by
  interval_cases d <;> rfl

theorem format08x_bytes (w : Nat) :
    format08x w =
      [w / 2 ^ 24 % 256, w / 2 ^ 16 % 256, w / 2 ^ 8 % 256, w % 256].flatMap
        (fun b => [Fips.hexChar (b / 16), Fips.hexChar (b % 16)]) := by
  rw [format08x_eq]
  simp only [List.range, List.range.loop, List.map, Nat.sub_zero, Nat.pow_zero, Nat.div_one,
    List.flatMap_cons, List.flatMap_nil, List.cons_append, List.nil_append]
  rw [hexChar_eq_xdigit _ (by omega), hexChar_eq_xdigit _ (by omega),
    hexChar_eq_xdigit _ (by omega), hexChar_eq_xdigit _ (by omega),
    hexChar_eq_xdigit _ (by omega), hexChar_eq_xdigit _ (by omega),
    hexChar_eq_xdigit _ (by omega), hexChar_eq_xdigit _ (by omega)]
  norm_num only
  have a7 : w / 16777216 % 256 / 16 = w / 268435456 % 16 := by omega
  have a6 : w / 16777216 % 256 % 16 = w / 16777216 % 16 := by omega
  have a5 : w / 65536 % 256 / 16 = w / 1048576 % 16 := by omega
  have a4 : w / 65536 % 256 % 16 = w / 65536 % 16 := by omega
  have a3 : w / 256 % 256 / 16 = w / 4096 % 16 := by omega
  have a2 : w / 256 % 256 % 16 = w / 256 % 16 := by omega
  have a1 : w % 256 / 16 = w / 16 % 16 := by omega
  have a0 : w % 256 % 16 = w % 16 := by omega
  rw [a7, a6, a5, a4, a3, a2, a1, a0, Nat.div_one]

theorem flatMap_format08x (H : List Nat) :
    H.flatMap format08x =
      (H.flatMap (fun w => [w / 2 ^ 24 % 256, w / 2 ^ 16 % 256, w / 2 ^ 8 % 256, w % 256])).flatMap
        (fun b => [Fips.hexChar (b / 16), Fips.hexChar (b % 16)]) := by
  induction H with
  | nil => rfl
  | cons w H ih =>
    rw [List.flatMap_cons, List.flatMap_cons, List.flatMap_append, ← ih, format08x_bytes]

theorem SHA256_eq_hex (M : List Nat) :
    SHA256 M = Fips.hex ((finalState M).flatMap
      (fun w => [w / 2 ^ 24 % 256, w / 2 ^ 16 % 256, w / 2 ^ 8 % 256, w % 256])) := by
  apply String.ext
  rw [SHA256_data, flatMap_format08x]
  rfl

/-! ## Lemmas on the word operations -/

theorem testBit_false_of_lt_word {x j : Nat} (hx : x < 2 ^ 32) (hj : 32 ≤ j) :
    x.testBit j = false :=
  Nat.testBit_lt_two_pow (Nat.lt_of_lt_of_le hx (Nat.pow_le_pow_right (by norm_num) hj))

theorem rotr_testBit (x n i : Nat) (hx : x < 2 ^ 32) (hn1 : 1 ≤ n) (hn : n ≤ 31) (hi : i < 32) :
    (rotr x n).testBit i = x.testBit ((i + n) % 32) := by
  unfold rotr
  rw [Nat.testBit_or, Nat.testBit_shiftRight, Nat.testBit_mod_two_pow, Nat.testBit_shiftLeft]
  by_cases h : i + n < 32
  · have h1 : ¬ (i ≥ 32 - n) := by omega
    rw [Nat.mod_eq_of_lt h, Nat.add_comm n i]
    simp [h1]
  · have h1 : i ≥ 32 - n := by omega
    have h2 : (i + n) % 32 = i - (32 - n) := by omega
    rw [testBit_false_of_lt_word hx (by omega), h2]
    simp [h1, hi]

theorem rotr_lt (x n : Nat) (hx : x < 2 ^ 32) : rotr x n < 2 ^ 32 := by
  unfold rotr
  apply Nat.or_lt_two_pow
  · rw [Nat.shiftRight_eq_div_pow]
    exact Nat.lt_of_le_of_lt (Nat.div_le_self _ _) hx
  · exact Nat.mod_lt _ (by norm_num)

theorem rotr_rotr_inverse (x n : Nat) (hx : x < 2 ^ 32) (hn1 : 1 ≤ n) (hn : n ≤ 31) :
    rotr (rotr x n) (32 - n) = x := by
  apply Nat.eq_of_testBit_eq
  intro i
  by_cases hi : i < 32
  · rw [rotr_testBit _ _ _ (rotr_lt x n hx) (by omega) (by omega) hi,
      rotr_testBit _ _ _ hx hn1 hn (Nat.mod_lt _ (by norm_num))]
    congr 1
    omega
  · rw [testBit_false_of_lt_word (rotr_lt _ _ (rotr_lt x n hx)) (by omega),
      testBit_false_of_lt_word hx (by omega)]

theorem rotr_popcount32 (x n : Nat) (hx : x < 2 ^ 32) (hn1 : 1 ≤ n) (hn : n ≤ 31) :
    popcount32 (rotr x n) = popcount32 x := by
  unfold popcount32
  rw [Finset.card_filter, Finset.card_filter]
  rw [← Equiv.sum_comp (Equiv.addRight (⟨n, by omega⟩ : Fin 32))
    (fun i : Fin 32 => if x.testBit i.val = true then 1 else 0)]
  apply Finset.sum_congr rfl
  intro i _
  rw [rotr_testBit x n i.val hx hn1 hn i.isLt]
  simp [Fin.val_add]

/-! ## Lemmas on the compression rounds -/

theorem mod_and_mask (x : Nat) : (x % 2 ^ 32) &&& 0xFFFFFFFF = x % 2 ^ 32 := by
  have h : (0xFFFFFFFF : Nat) = 2 ^ 32 - 1 := by norm_num
  rw [h, Nat.and_pow_two_sub_one_eq_mod, Nat.mod_mod]

theorem round_eq (K block : List Nat) (v : Working) (i : Nat) :
    round K block v i =
      { a := ((v.h + big_sigma1 v.e + choice v.e v.f v.g + K.getD i 0 + block.getD i 0) % 2 ^ 32 +
            (big_sigma0 v.a + majority v.a v.b v.c) % 2 ^ 32) % 2 ^ 32
        b := v.a
        c := v.b
        d := v.c
        e := (v.d +
            (v.h + big_sigma1 v.e + choice v.e v.f v.g + K.getD i 0 + block.getD i 0) % 2 ^ 32) %
              2 ^ 32
        f := v.e
        g := v.f
        h := v.g } := by
  simp only [round, mod_and_mask]

theorem round_isWord32 (K block : List Nat) (v : Working) (i : Nat) (hv : v.IsWord32) :
    (round K block v i).IsWord32 := by
  obtain ⟨ha, hb, hc, hd, he, hf, hg, hh⟩ := hv
  rw [round_eq]
  exact ⟨Nat.mod_lt _ (by norm_num), ha, hb, hc, Nat.mod_lt _ (by norm_num), he, hf, hg⟩

theorem add_mod_cancel_word {x y s : Nat} (hx : x < 2 ^ 32) (hy : y < 2 ^ 32)
    (h : (x + s) % 2 ^ 32 = (y + s) % 2 ^ 32) : x = y := by
  norm_num at hx hy h
  omega

theorem round_injective (K block : List Nat) (i : Nat) (v w : Working)
    (hv : v.IsWord32) (hw : w.IsWord32) (h : round K block v i = round K block w i) : v = w := by
  obtain ⟨-, -, -, hvd, -, -, -, hvh⟩ := hv
  obtain ⟨-, -, -, hwd, -, -, -, hwh⟩ := hw
  rw [round_eq, round_eq] at h
  obtain ⟨va, vb, vc, vd, ve, vf, vg, vh⟩ := v
  obtain ⟨wa, wb, wc, wd, we, wf, wg, wh⟩ := w
  simp only [Working.mk.injEq] at h
  obtain ⟨h1, h2, h3, h4, h5, h6, h7, h8⟩ := h
  simp only at hvd hvh hwd hwh
  subst h2 h3 h4 h6 h7 h8
  have hT : (vh + big_sigma1 ve + choice ve vf vg + K.getD i 0 + block.getD i 0) % 2 ^ 32 =
      (wh + big_sigma1 ve + choice ve vf vg + K.getD i 0 + block.getD i 0) % 2 ^ 32 :=
    add_mod_cancel_word (Nat.mod_lt _ (by norm_num)) (Nat.mod_lt _ (by norm_num)) h1
  have hh : vh = wh := by
    apply add_mod_cancel_word hvh hwh (s := big_sigma1 ve + choice ve vf vg + K.getD i 0 + block.getD i 0)
    simpa only [Nat.add_assoc] using hT
  subst hh
  have hd : vd = wd := add_mod_cancel_word hvd hwd h5
  subst hd
  rfl

theorem rounds_isWord32 (K block : List Nat) (l : List Nat) (v : Working) (hv : v.IsWord32) :
    (l.foldl (round K block) v).IsWord32 := by
  induction l generalizing v with
  | nil => exact hv
  | cons i l ih => exact ih _ (round_isWord32 K block v i hv)

theorem rounds_injective (K block : List Nat) (l : List Nat) (v w : Working)
    (hv : v.IsWord32) (hw : w.IsWord32)
    (h : l.foldl (round K block) v = l.foldl (round K block) w) : v = w := by
  induction l generalizing v w with
  | nil => exact h
  | cons i l ih =>
    exact round_injective K block i v w hv hw
      (ih _ _ (round_isWord32 K block v i hv) (round_isWord32 K block w i hw) h)

/-! ## Lemmas on `compressBlock` -/

theorem exists_eight {H : List Nat} (hH : H.length = 8) :
    ∃ h0 h1 h2 h3 h4 h5 h6 h7, H = [h0, h1, h2, h3, h4, h5, h6, h7] := by
  match H, hH with
  | [h0, h1, h2, h3, h4, h5, h6, h7], _ => exact ⟨h0, h1, h2, h3, h4, h5, h6, h7, rfl⟩

theorem compressBlock_eight (K block : List Nat) (h0 h1 h2 h3 h4 h5 h6 h7 : Nat) :
    compressBlock K [h0, h1, h2, h3, h4, h5, h6, h7] block =
      [(h0 + ((List.range 64).foldl (round K block) ⟨h0, h1, h2, h3, h4, h5, h6, h7⟩).a) % 2 ^ 32,
       (h1 + ((List.range 64).foldl (round K block) ⟨h0, h1, h2, h3, h4, h5, h6, h7⟩).b) % 2 ^ 32,
       (h2 + ((List.range 64).foldl (round K block) ⟨h0, h1, h2, h3, h4, h5, h6, h7⟩).c) % 2 ^ 32,
       (h3 + ((List.range 64).foldl (round K block) ⟨h0, h1, h2, h3, h4, h5, h6, h7⟩).d) % 2 ^ 32,
       (h4 + ((List.range 64).foldl (round K block) ⟨h0, h1, h2, h3, h4, h5, h6, h7⟩).e) % 2 ^ 32,
       (h5 + ((List.range 64).foldl (round K block) ⟨h0, h1, h2, h3, h4, h5, h6, h7⟩).f) % 2 ^ 32,
       (h6 + ((List.range 64).foldl (round K block) ⟨h0, h1, h2, h3, h4, h5, h6, h7⟩).g) % 2 ^ 32,
       (h7 + ((List.range 64).foldl (round K block) ⟨h0, h1, h2, h3, h4, h5, h6, h7⟩).h) % 2 ^ 32] := by
  simp only [compressBlock, mod_and_mask, List.set, List.getD_cons_zero, List.getD_cons_succ]

theorem round_set_of_ne (K block : List Nat) (i v j : Nat) (s : Working) (hj : i ≠ j) :
    round (K.set i v) block s j = round K block s j := by
  have h : (K.set i v).getD j 0 = K.getD j 0 := by
    rw [List.getD_eq_getElem?_getD, List.getD_eq_getElem?_getD, List.getElem?_set_ne hj]
  simp only [round, h]

theorem round_set_ne (K block : List Nat) (i v : Nat) (s : Working) (hi : i < K.length)
    (hv : v < 2 ^ 32) (hK : K.getD i 0 < 2 ^ 32) (hne : v ≠ K.getD i 0) :
    round (K.set i v) block s i ≠ round K block s i := by
  have h : (K.set i v).getD i 0 = v := by
    rw [List.getD_eq_getElem?_getD, List.getElem?_set_self hi]; rfl
  rw [round_eq, round_eq, h]
  intro hEq
  simp only [Working.mk.injEq] at hEq
  obtain ⟨-, -, -, -, h5, -⟩ := hEq
  generalize K.getD i 0 = k at hK hne h5
  generalize s.h + big_sigma1 s.e + choice s.e s.f s.g = t at h5
  generalize block.getD i 0 = w at h5
  generalize s.d = d at h5
  norm_num at hv hK h5
  omega

theorem rounds_set_ne (K block : List Nat) (i v : Nat) (s : Working) (hs : s.IsWord32)
    (hi64 : i < 64) (hi : i < K.length) (hv : v < 2 ^ 32) (hK : K.getD i 0 < 2 ^ 32)
    (hne : v ≠ K.getD i 0) :
    (List.range 64).foldl (round (K.set i v) block) s ≠
      (List.range 64).foldl (round K block) s := by
  have hsplit : List.range 64 = List.range' 0 i ++ i :: List.range' (i + 1) (63 - i) := by
    have h := List.range'_append 0 i (63 - i + 1) 1
    rw [show 63 - i + 1 + i = 64 by omega, show 0 + 1 * i = i by omega] at h
    rw [List.range_eq_range', ← List.range'_succ, h]
  rw [hsplit, List.foldl_append, List.foldl_append, List.foldl_cons, List.foldl_cons]
  have hpre : (List.range' 0 i).foldl (round (K.set i v) block) s =
      (List.range' 0 i).foldl (round K block) s := by
    apply List.foldl_ext
    intro a b hb
    rw [List.mem_range'_1] at hb
    exact round_set_of_ne K block i v b a (by omega)
  rw [hpre]
  have hsuf : ∀ a, (List.range' (i + 1) (63 - i)).foldl (round (K.set i v) block) a =
      (List.range' (i + 1) (63 - i)).foldl (round K block) a := by
    intro a
    apply List.foldl_ext
    intro a b hb
    rw [List.mem_range'_1] at hb
    exact round_set_of_ne K block i v b a (by omega)
  rw [hsuf]
  intro hEq
  have hmid := rounds_isWord32 K block (List.range' 0 i) s hs
  exact round_set_ne K block i v _ hi hv hK hne
    (rounds_injective K block _ _ _ (round_isWord32 _ _ _ _ hmid) (round_isWord32 _ _ _ _ hmid) hEq)

theorem compressBlock_set_ne (K H block : List Nat) (i v : Nat) (hH : H.length = 8)
    (hHw : ∀ x ∈ H, x < 2 ^ 32) (hi64 : i < 64) (hi : i < K.length) (hv : v < 2 ^ 32)
    (hK : K.getD i 0 < 2 ^ 32) (hne : v ≠ K.getD i 0) :
    compressBlock (K.set i v) H block ≠ compressBlock K H block := by
  obtain ⟨h0, h1, h2, h3, h4, h5, h6, h7, rfl⟩ := exists_eight hH
  have hs : (⟨h0, h1, h2, h3, h4, h5, h6, h7⟩ : Working).IsWord32 := by
    simp only [List.mem_cons, List.mem_nil_iff, or_false, forall_eq_or_imp, forall_eq] at hHw
    exact hHw
  have hfin := rounds_set_ne K block i v _ hs hi64 hi hv hK hne
  have w1 := rounds_isWord32 (K.set i v) block (List.range 64) _ hs
  have w2 := rounds_isWord32 K block (List.range 64) _ hs
  rw [compressBlock_eight, compressBlock_eight]
  intro hEq
  apply hfin
  generalize (List.range 64).foldl (round (K.set i v) block) ⟨h0, h1, h2, h3, h4, h5, h6, h7⟩ = p
    at hEq w1 ⊢
  generalize (List.range 64).foldl (round K block) ⟨h0, h1, h2, h3, h4, h5, h6, h7⟩ = q
    at hEq w2 ⊢
  obtain ⟨pa, pb, pc, pd, pe, pf, pg, ph⟩ := p
  obtain ⟨qa, qb, qc, qd, qe, qf, qg, qh⟩ := q
  obtain ⟨a1, a2, a3, a4, a5, a6, a7, a8⟩ := w1
  obtain ⟨b1, b2, b3, b4, b5, b6, b7, b8⟩ := w2
  simp only [List.cons.injEq, and_true] at hEq
  obtain ⟨e1, e2, e3, e4, e5, e6, e7, e8⟩ := hEq
  simp only at a1 a2 a3 a4 a5 a6 a7 a8 b1 b2 b3 b4 b5 b6 b7 b8 e1 e2 e3 e4 e5 e6 e7 e8
  simp only [Nat.add_comm h0, Nat.add_comm h1, Nat.add_comm h2, Nat.add_comm h3,
    Nat.add_comm h4, Nat.add_comm h5, Nat.add_comm h6, Nat.add_comm h7] at e1 e2 e3 e4 e5 e6 e7 e8
  rw [add_mod_cancel_word a1 b1 e1, add_mod_cancel_word a2 b2 e2, add_mod_cancel_word a3 b3 e3,
    add_mod_cancel_word a4 b4 e4, add_mod_cancel_word a5 b5 e5, add_mod_cancel_word a6 b6 e6,
    add_mod_cancel_word a7 b7 e7, add_mod_cancel_word a8 b8 e8]

/-! ## Lemmas on `SegmentToBlocks` and `MessageSchedule` -/

theorem be_or_eq_add (a b c d : Nat) (hb : b < 256) (hc : c < 256) (hd : d < 256) :
    (a <<< 24) ||| (b <<< 16) ||| (c <<< 8) ||| d = a * 2 ^ 24 + b * 2 ^ 16 + c * 2 ^ 8 + d := by
  have h1 : (a <<< 24) ||| (b <<< 16) = a * 2 ^ 24 + b * 2 ^ 16 := by
    have hlt : b * 2 ^ 16 < 2 ^ 24 := by omega
    have h := Nat.mul_add_lt_is_or hlt a
    rw [Nat.shiftLeft_eq, Nat.shiftLeft_eq, Nat.mul_comm a (2 ^ 24)]
    exact h.symm
  have h2 : (a * 2 ^ 24 + b * 2 ^ 16) ||| (c <<< 8) = a * 2 ^ 24 + b * 2 ^ 16 + c * 2 ^ 8 := by
    have hlt : c * 2 ^ 8 < 2 ^ 16 := by omega
    have h := Nat.mul_add_lt_is_or hlt (a * 2 ^ 8 + b)
    rw [Nat.shiftLeft_eq]
    have e : 2 ^ 16 * (a * 2 ^ 8 + b) = a * 2 ^ 24 + b * 2 ^ 16 := by ring
    rw [e] at h
    exact h.symm
  have h3 : (a * 2 ^ 24 + b * 2 ^ 16 + c * 2 ^ 8) ||| d =
      a * 2 ^ 24 + b * 2 ^ 16 + c * 2 ^ 8 + d := by
    have hlt : d < 2 ^ 8 := by omega
    have h := Nat.mul_add_lt_is_or hlt (a * 2 ^ 16 + b * 2 ^ 8 + c)
    have e : 2 ^ 8 * (a * 2 ^ 16 + b * 2 ^ 8 + c) = a * 2 ^ 24 + b * 2 ^ 16 + c * 2 ^ 8 := by ring
    rw [e] at h
    exact h.symm
  rw [h1, h2, h3]

theorem getD_lt_of_forall {P : List Nat} {n : Nat} (hP : ∀ x ∈ P, x < n) (hn : 0 < n) (j : Nat) :
    P.getD j 0 < n := by
  rw [List.getD_eq_getElem?_getD]
  by_cases h : j < P.length
  · rw [List.getElem?_eq_getElem h]
    exact hP _ (List.getElem_mem h)
  · rw [List.getElem?_eq_none (by omega)]
    exact hn

theorem blockWord_eq (P : List Nat) (hP : ∀ x ∈ P, x < 256) (i j : Nat) :
    blockWord P i j =
      P.getD (i + j * 4) 0 * 2 ^ 24 + P.getD (i + j * 4 + 1) 0 * 2 ^ 16 +
        P.getD (i + j * 4 + 2) 0 * 2 ^ 8 + P.getD (i + j * 4 + 3) 0 := by
  have h0 := getD_lt_of_forall hP (by norm_num) (i + j * 4)
  have h1 := getD_lt_of_forall hP (by norm_num) (i + j * 4 + 1)
  have h2 := getD_lt_of_forall hP (by norm_num) (i + j * 4 + 2)
  have h3 := getD_lt_of_forall hP (by norm_num) (i + j * 4 + 3)
  unfold blockWord
  rw [be_or_eq_add _ _ _ _ h1 h2 h3]
  apply Nat.mod_eq_of_lt
  omega

theorem SegmentToBlocks_length (P : List Nat) :
    (SegmentToBlocks P).length = (P.length + 63) / 64 := by
  simp [SegmentToBlocks]

theorem SegmentToBlocks_getD (P : List Nat) (b : Nat) (hb : b < (P.length + 63) / 64) :
    (SegmentToBlocks P).getD b [] = (List.range 16).map (fun j => blockWord P (b * 64) j) := by
  unfold SegmentToBlocks
  rw [List.getD_eq_getElem?_getD, List.getElem?_map, List.getElem?_range hb]
  rfl

theorem scheduleLoop_succ (block : List Nat) (k : Nat) :
    (List.range (k + 1)).foldl scheduleStep block =
      scheduleStep ((List.range k).foldl scheduleStep block) k := by
  rw [List.range_succ, List.foldl_append]
  rfl

theorem scheduleStep_length (block : List Nat) (k : Nat) :
    (scheduleStep block k).length = block.length + 1 := by
  simp [scheduleStep]

theorem scheduleLoop_length (block : List Nat) (k : Nat) :
    ((List.range k).foldl scheduleStep block).length = block.length + k := by
  induction k with
  | zero => rfl
  | succ k ih => rw [scheduleLoop_succ, scheduleStep_length, ih]; omega

theorem scheduleStep_getD_lt (E : List Nat) (k j : Nat) (hj : j < E.length) :
    (scheduleStep E k).getD j 0 = E.getD j 0 := by
  unfold scheduleStep
  simp only [List.getD_eq_getElem?_getD]
  rw [List.getElem?_append_left hj]

theorem scheduleStep_getD_length (E : List Nat) (k : Nat) :
    (scheduleStep E k).getD E.length 0 =
      (E.getD (k + 16 - 16) 0 + small_sigma0 (E.getD (k + 16 - 15) 0) + E.getD (k + 16 - 7) 0 +
        small_sigma1 (E.getD (k + 16 - 2) 0)) % 2 ^ 32 := by
  unfold scheduleStep
  simp only [mod_and_mask]
  rw [List.getD_eq_getElem?_getD (E ++ _), List.getElem?_append_right (Nat.le_refl _),
    Nat.sub_self]
  rfl

theorem scheduleLoop_stable (block : List Nat) (k n j : Nat) (hkn : k ≤ n)
    (hj : j < block.length + k) :
    ((List.range n).foldl scheduleStep block).getD j 0 =
      ((List.range k).foldl scheduleStep block).getD j 0 := by
  induction n with
  | zero =>
    have : k = 0 := by omega
    rw [this]
  | succ n ih =>
    by_cases hk : k = n + 1
    · rw [hk]
    · have hl := scheduleLoop_length block n
      rw [scheduleLoop_succ, scheduleStep_getD_lt _ _ _ (by omega)]
      exact ih (by omega)

theorem extendBlock_length (block : List Nat) : (extendBlock block).length = block.length + 48 :=
  scheduleLoop_length block 48

theorem extendBlock_getD_lt (block : List Nat) (j : Nat) (hj : j < block.length) :
    (extendBlock block).getD j 0 = block.getD j 0 :=
  scheduleLoop_stable block 0 48 j (by omega) (by omega)

theorem extendBlock_getD_ge (block : List Nat) (hb : block.length = 16) (i : Nat)
    (h16 : 16 ≤ i) (h64 : i < 64) :
    (extendBlock block).getD i 0 =
      ((extendBlock block).getD (i - 16) 0 + small_sigma0 ((extendBlock block).getD (i - 15) 0) +
        (extendBlock block).getD (i - 7) 0 + small_sigma1 ((extendBlock block).getD (i - 2) 0)) %
          2 ^ 32 := by
  obtain ⟨k, rfl⟩ : ∃ k, i = k + 16 := ⟨i - 16, by omega⟩
  have hl := scheduleLoop_length block k
  unfold extendBlock
  rw [scheduleLoop_stable block k 48 (k + 16 - 16) (by omega) (by omega),
    scheduleLoop_stable block k 48 (k + 16 - 15) (by omega) (by omega),
    scheduleLoop_stable block k 48 (k + 16 - 7) (by omega) (by omega),
    scheduleLoop_stable block k 48 (k + 16 - 2) (by omega) (by omega),
    scheduleLoop_stable block (k + 1) 48 (k + 16) (by omega) (by omega),
    scheduleLoop_succ]
  generalize (List.range k).foldl scheduleStep block = E at hl
  have hk : k + 16 = E.length := by omega
  rw [hk, scheduleStep_getD_length, ← hk]
/-! ## The word functions of the program and of the reference agree -/

theorem rotr_eq_ROTR (x n : Nat) (hx : x < 2 ^ 32) (hn1 : 1 ≤ n) (hn : n ≤ 31) :
    rotr x n = Fips.ROTR n x := by
  unfold rotr Fips.ROTR
  have hpow : (2 : Nat) ^ 32 = 2 ^ n * 2 ^ (32 - n) := by
    rw [← pow_add]; congr 1; omega
  have h1 : (x <<< (32 - n)) % 2 ^ 32 = 2 ^ (32 - n) * (x % 2 ^ n) := by
    rw [Nat.shiftLeft_eq, hpow, Nat.mul_mod_mul_right, Nat.mul_comm]
  have h2 : x >>> n < 2 ^ (32 - n) := by
    rw [Nat.shiftRight_eq_div_pow, Nat.div_lt_iff_lt_mul (Nat.two_pow_pos n), Nat.mul_comm, ← hpow]
    exact hx
  rw [h1, Nat.or_comm, ← Nat.mul_add_lt_is_or h2, Nat.shiftRight_eq_div_pow, Nat.add_comm,
    Nat.mul_comm]

theorem small_sigma0_eq (x : Nat) (hx : x < 2 ^ 32) : small_sigma0 x = Fips.smallSigma0 x := by
  unfold small_sigma0 Fips.smallSigma0 Fips.SHR
  rw [rotr_eq_ROTR x 7 hx (by norm_num) (by norm_num),
    rotr_eq_ROTR x 18 hx (by norm_num) (by norm_num), Nat.shiftRight_eq_div_pow]

theorem small_sigma1_eq (x : Nat) (hx : x < 2 ^ 32) : small_sigma1 x = Fips.smallSigma1 x := by
  unfold small_sigma1 Fips.smallSigma1 Fips.SHR
  rw [rotr_eq_ROTR x 17 hx (by norm_num) (by norm_num),
    rotr_eq_ROTR x 19 hx (by norm_num) (by norm_num), Nat.shiftRight_eq_div_pow]

theorem big_sigma0_eq (x : Nat) (hx : x < 2 ^ 32) : big_sigma0 x = Fips.bigSigma0 x := by
  unfold big_sigma0 Fips.bigSigma0
  rw [rotr_eq_ROTR x 2 hx (by norm_num) (by norm_num),
    rotr_eq_ROTR x 13 hx (by norm_num) (by norm_num),
    rotr_eq_ROTR x 22 hx (by norm_num) (by norm_num)]

theorem big_sigma1_eq (x : Nat) (hx : x < 2 ^ 32) : big_sigma1 x = Fips.bigSigma1 x := by
  unfold big_sigma1 Fips.bigSigma1
  rw [rotr_eq_ROTR x 6 hx (by norm_num) (by norm_num),
    rotr_eq_ROTR x 11 hx (by norm_num) (by norm_num),
    rotr_eq_ROTR x 25 hx (by norm_num) (by norm_num)]

theorem choice_eq_Ch (x y z : Nat) (hx : x < 2 ^ 32) : choice x y z = Fips.Ch x y z := by
  unfold choice Fips.Ch not32
  rw [Nat.mod_eq_of_lt hx]
  norm_num

theorem majority_eq_Maj (x y z : Nat) : majority x y z = Fips.Maj x y z := rfl

theorem step_eq_round (K block : List Nat) (i : Nat) (v : Working) (hv : v.IsWord32) :
    Fips.step v.toList (K.getD i 0, block.getD i 0) = (round K block v i).toList := by
  obtain ⟨ha, -, -, -, he, -, -, -⟩ := hv
  rw [round_eq]
  simp only [Working.toList, Fips.step, Fips.add32, ← big_sigma0_eq _ ha, ← big_sigma1_eq _ he,
    ← choice_eq_Ch _ v.f v.g he, ← majority_eq_Maj]
  simp only [Nat.add_mod, Nat.mod_mod]

theorem foldl_eq_foldl_range {α β : Type} (f : α → β → α) (d : β) (l : List β) (a : α) :
    l.foldl f a = (List.range l.length).foldl (fun s i => f s (l.getD i d)) a := by
  induction l using List.reverseRecOn generalizing a with
  | nil => rfl
  | append_singleton l x ih =>
    rw [List.foldl_append, List.length_append, List.length_singleton, List.range_succ,
      List.foldl_append, List.foldl_cons, List.foldl_nil, List.foldl_cons, List.foldl_nil, ih]
    have h1 : (List.range l.length).foldl (fun s i => f s ((l ++ [x]).getD i d)) a =
        (List.range l.length).foldl (fun s i => f s (l.getD i d)) a := by
      apply List.foldl_ext
      intro s i hi
      rw [List.mem_range] at hi
      simp only [List.getD_eq_getElem?_getD]
      rw [List.getElem?_append_left hi]
    rw [h1]
    congr 1
    simp only [List.getD_eq_getElem?_getD]
    rw [List.getElem?_append_right (Nat.le_refl _), Nat.sub_self]
    rfl

theorem zip_getD (K W : List Nat) (i : Nat) (hK : i < K.length) (hW : i < W.length) :
    (K.zip W).getD i (0, 0) = (K.getD i 0, W.getD i 0) := by
  have hz : i < (K.zip W).length := by
    rw [List.length_zip]; omega
  rw [List.getD_eq_getElem _ _ hz, List.getD_eq_getElem _ _ hK, List.getD_eq_getElem _ _ hW,
    List.getElem_zip]

theorem steps_eq_rounds (K block : List Nat) (l : List Nat) (v : Working) (hv : v.IsWord32) :
    l.foldl (fun s i => Fips.step s (K.getD i 0, block.getD i 0)) v.toList =
      (l.foldl (round K block) v).toList := by
  induction l generalizing v with
  | nil => rfl
  | cons i l ih =>
    rw [List.foldl_cons, List.foldl_cons, step_eq_round K block i v hv,
      ih _ (round_isWord32 K block v i hv)]

theorem zip_steps_eq_rounds (K block : List Nat) (hK : K.length = 64) (hb : block.length = 64)
    (v : Working) (hv : v.IsWord32) :
    (K.zip block).foldl Fips.step v.toList =
      ((List.range 64).foldl (round K block) v).toList := by
  rw [foldl_eq_foldl_range Fips.step (0, 0), List.length_zip, hK, hb, Nat.min_self,
    ← steps_eq_rounds K block _ v hv]
  apply List.foldl_ext
  intro s i hi
  rw [List.mem_range] at hi
  rw [zip_getD K block i (by omega) (by omega)]

theorem compressBlock_eq_fips (K H block : List Nat) (hK : K.length = 64)
    (hb : block.length = 64) (hH : H.length = 8) (hHw : ∀ x ∈ H, x < 2 ^ 32) :
    compressBlock K H block = List.zipWith Fips.add32 ((K.zip block).foldl Fips.step H) H := by
  obtain ⟨h0, h1, h2, h3, h4, h5, h6, h7, rfl⟩ := exists_eight hH
  have hs : (⟨h0, h1, h2, h3, h4, h5, h6, h7⟩ : Working).IsWord32 := by
    simp only [List.mem_cons, List.mem_nil_iff, or_false, forall_eq_or_imp, forall_eq] at hHw
    exact hHw
  have h := zip_steps_eq_rounds K block hK hb _ hs
  simp only [Working.toList] at h
  rw [h, compressBlock_eight]
  simp only [List.zipWith, Fips.add32, Nat.add_comm]

theorem compressBlock_word32 (K H block : List Nat) (hH : H.length = 8) :
    ∀ x ∈ compressBlock K H block, x < 2 ^ 32 := by
  obtain ⟨h0, h1, h2, h3, h4, h5, h6, h7, rfl⟩ := exists_eight hH
  rw [compressBlock_eight]
  intro x hx
  simp only [List.mem_cons, List.mem_nil_iff, or_false] at hx
  rcases hx with h | h | h | h | h | h | h | h <;> rw [h] <;> exact Nat.mod_lt _ (by norm_num)

/-! ## The schedule and the parsing of the program and of the reference agree -/

theorem add32_schedule (s1 w7 s0 w16 : Nat) :
    Fips.add32 (Fips.add32 (Fips.add32 s1 w7) s0) w16 = (w16 + s0 + w7 + s1) % 2 ^ 32 := by
  unfold Fips.add32
  norm_num
  omega

theorem fips_word_eq_scheduleStep (W : List Nat) (k : Nat) (hl : W.length = k + 16)
    (hW : ∀ x ∈ W, x < 2 ^ 32) :
    W ++ [Fips.add32 (Fips.add32 (Fips.add32 (Fips.smallSigma1 (W.getD (W.length - 2) 0))
        (W.getD (W.length - 7) 0)) (Fips.smallSigma0 (W.getD (W.length - 15) 0)))
        (W.getD (W.length - 16) 0)] = scheduleStep W k := by
  have b15 := getD_lt_of_forall hW (by norm_num) (k + 16 - 15)
  have b2 := getD_lt_of_forall hW (by norm_num) (k + 16 - 2)
  unfold scheduleStep
  simp only [mod_and_mask, hl, add32_schedule, small_sigma0_eq _ b15, small_sigma1_eq _ b2]

theorem scheduleStep_word32 (W : List Nat) (k : Nat) (hW : ∀ x ∈ W, x < 2 ^ 32) :
    ∀ x ∈ scheduleStep W k, x < 2 ^ 32 := by
  intro x hx
  unfold scheduleStep at hx
  simp only [mod_and_mask, List.mem_append, List.mem_singleton] at hx
  rcases hx with h | h
  · exact hW x h
  · rw [h]; exact Nat.mod_lt _ (by norm_num)

theorem expand_eq_scheduleLoop (n k : Nat) (W : List Nat) (hl : W.length = k + 16)
    (hW : ∀ x ∈ W, x < 2 ^ 32) :
    Fips.expand n W = (List.range' k n).foldl scheduleStep W := by
  induction n generalizing k W with
  | zero => rfl
  | succ n ih =>
    rw [List.range'_succ, List.foldl_cons]
    unfold Fips.expand
    simp only []
    rw [fips_word_eq_scheduleStep W k hl hW]
    exact ih (k + 1) _ (by rw [scheduleStep_length, hl]) (scheduleStep_word32 W k hW)

theorem expand_eq_extendBlock (W : List Nat) (hl : W.length = 16) (hW : ∀ x ∈ W, x < 2 ^ 32) :
    Fips.expand 48 W = extendBlock W := by
  rw [expand_eq_scheduleLoop 48 0 W hl hW, extendBlock, List.range_eq_range']

theorem take_four_drop (l : List Nat) (i : Nat) (h : i + 4 ≤ l.length) :
    (l.drop i).take 4 = [l.getD i 0, l.getD (i + 1) 0, l.getD (i + 2) 0, l.getD (i + 3) 0] := by
  have h0 : i < l.length := by omega
  have h1 : i + 1 < l.length := by omega
  have h2 : i + 2 < l.length := by omega
  have h3 : i + 3 < l.length := by omega
  rw [List.drop_eq_getElem_cons h0, List.drop_eq_getElem_cons h1, List.drop_eq_getElem_cons h2,
    List.drop_eq_getElem_cons h3, List.getD_eq_getElem _ _ h0, List.getD_eq_getElem _ _ h1,
    List.getD_eq_getElem _ _ h2, List.getD_eq_getElem _ _ h3]
  rfl

theorem block_length (P : List Nat) (b : Nat) (hb : 64 * b + 64 ≤ P.length) :
    (Fips.block P b).length = 64 := by
  unfold Fips.block
  rw [List.length_take, List.length_drop]
  omega

theorem block_getD (P : List Nat) (b j : Nat) (hj : j < 64) :
    (Fips.block P b).getD j 0 = P.getD (64 * b + j) 0 := by
  unfold Fips.block
  rw [List.getD_eq_getElem?_getD, List.getD_eq_getElem?_getD, List.getElem?_take_of_lt hj,
    List.getElem?_drop]

theorem blockWords_eq (P : List Nat) (hP : ∀ x ∈ P, x < 256) (b : Nat)
    (hb : 64 * b + 64 ≤ P.length) :
    Fips.blockWords (Fips.block P b) = (List.range 16).map (fun j => blockWord P (b * 64) j) := by
  unfold Fips.blockWords
  apply List.map_congr_left
  intro t ht
  rw [List.mem_range] at ht
  rw [take_four_drop _ _ (by rw [block_length P b hb]; omega), blockWord_eq P hP,
    block_getD _ _ _ (by omega), block_getD _ _ _ (by omega), block_getD _ _ _ (by omega),
    block_getD _ _ _ (by omega)]
  have e0 : 64 * b + 4 * t = b * 64 + t * 4 := by omega
  have e1 : 64 * b + (4 * t + 1) = b * 64 + t * 4 + 1 := by omega
  have e2 : 64 * b + (4 * t + 2) = b * 64 + t * 4 + 2 := by omega
  have e3 : 64 * b + (4 * t + 3) = b * 64 + t * 4 + 3 := by omega
  rw [e0, e1, e2, e3]
  rfl

theorem blockWord_lt (P : List Nat) (i j : Nat) : blockWord P i j < 2 ^ 32 :=
  Nat.mod_lt _ (by norm_num)

theorem schedule_eq (P : List Nat) (hP : ∀ x ∈ P, x < 256) (b : Nat)
    (hb : 64 * b + 64 ≤ P.length) :
    Fips.schedule (Fips.block P b) =
      extendBlock ((List.range 16).map (fun j => blockWord P (b * 64) j)) := by
  unfold Fips.schedule
  rw [blockWords_eq P hP b hb]
  apply expand_eq_extendBlock
  · simp
  · intro x hx
    rw [List.mem_map] at hx
    obtain ⟨j, -, rfl⟩ := hx
    exact blockWord_lt _ _ _

/-! ## The padding of the program and of the reference -/

theorem be64_getD (n i : Nat) (hi : i < 8) :
    (Fips.be64 n).getD i 0 = n / 2 ^ (8 * (7 - i)) % 256 := by
  interval_cases i <;> simp [Fips.be64]

theorem pad_length_eq (M : List Nat) :
    (Fips.pad M).length = M.length + 1 + Fips.zeroCount M.length + 8 := by
  simp only [Fips.pad, Fips.be64, List.length_append, List.length_map, List.length_singleton,
    List.length_replicate, List.length_cons, List.length_nil]

theorem pad_getD (M : List Nat) (j : Nat) :
    (Fips.pad M).getD j 0 =
      if j < M.length then M.getD j 0 % 256
      else if j = M.length then 0x80
      else if j < M.length + 1 + Fips.zeroCount M.length then 0
      else if j < M.length + 1 + Fips.zeroCount M.length + 8 then
        8 * M.length / 2 ^ (8 * (7 - (j - (M.length + 1 + Fips.zeroCount M.length)))) % 256
      else 0 := by
  unfold Fips.pad
  simp only [List.getD_eq_getElem?_getD]
  by_cases h1 : j < M.length
  · rw [if_pos h1, List.getElem?_append_left (by simp; omega),
      List.getElem?_append_left (by simp; omega), List.getElem?_append_left (by simp; omega),
      List.getElem?_map, List.getElem?_eq_getElem h1]
    rfl
  · rw [if_neg h1]
    by_cases h2 : j = M.length
    · rw [if_pos h2, List.getElem?_append_left (by simp; omega),
        List.getElem?_append_left (by simp; omega),
        List.getElem?_append_right (by simp; omega)]
      simp [h2]
    · rw [if_neg h2]
      by_cases h3 : j < M.length + 1 + Fips.zeroCount M.length
      · rw [if_pos h3, List.getElem?_append_left (by simp; omega),
          List.getElem?_append_right (by simp; omega), List.getElem?_replicate]
        simp only [List.length_append, List.length_map, List.length_singleton]
        rw [if_pos (by omega)]
        rfl
      · rw [if_neg h3, List.getElem?_append_right (by simp; omega)]
        simp only [List.length_append, List.length_map, List.length_singleton,
          List.length_replicate]
        by_cases h4 : j < M.length + 1 + Fips.zeroCount M.length + 8
        · rw [if_pos h4, ← List.getD_eq_getElem?_getD, be64_getD _ _ (by omega)]
        · rw [if_neg h4, List.getElem?_eq_none (by simp [Fips.be64]; omega)]
          rfl

theorem eq_of_getD_eq {l1 l2 : List Nat} (hl : l1.length = l2.length)
    (h : ∀ j, j < l1.length → l1.getD j 0 = l2.getD j 0) : l1 = l2 := by
  apply List.ext_getElem hl
  intro j h1 h2
  have := h j h1
  rwa [List.getD_eq_getElem _ _ h1, List.getD_eq_getElem _ _ h2] at this

theorem Padding_eq_pad (M : List Nat) (hL : M.length % 64 ≠ 56) : Padding M = Fips.pad M := by
  have hz : Fips.zeroCount M.length = (119 - M.length % 64) % 64 := rfl
  have hlenP := Padding_length M
  have hlenF := pad_length_eq M
  have hlen : (Padding M).length = M.length + 1 + Fips.zeroCount M.length + 8 := by
    rw [hlenP, hz]; omega
  apply eq_of_getD_eq (by rw [hlen, hlenF])
  intro j hj
  rw [Padding_getD, pad_getD, hlen]
  rw [hlen] at hj
  by_cases h1 : j < M.length
  · rw [if_neg (by omega), if_neg (by omega), if_pos h1, if_pos h1]
  · by_cases h2 : j = M.length
    · rw [if_neg (by omega), if_pos h2, if_neg h1, if_pos h2]
    · by_cases h3 : j < M.length + 1 + Fips.zeroCount M.length
      · rw [if_neg (by omega), if_neg h2, if_neg h1, if_neg h1, if_neg h2, if_pos h3]
      · have h255 : (255 : Nat) = 2 ^ 8 - 1 := by norm_num
        have hc : M.length + 1 + Fips.zeroCount M.length + 8 - 8 ≤ j ∧
            j < M.length + 1 + Fips.zeroCount M.length + 8 := by omega
        rw [if_pos hc, if_neg h1, if_neg h2, if_neg h3, if_pos hj, Nat.shiftRight_eq_div_pow,
          h255, Nat.and_pow_two_sub_one_eq_mod, Nat.add_sub_cancel, Nat.mul_comm]

theorem pad_bytes (M : List Nat) : ∀ x ∈ Fips.pad M, x < 256 := by
  intro x hx
  unfold Fips.pad Fips.be64 at hx
  simp only [List.mem_append, List.mem_map, List.mem_singleton, List.mem_replicate,
    List.mem_cons, List.mem_nil_iff, or_false] at hx
  rcases hx with ((⟨c, -, rfl⟩ | h) | ⟨-, h⟩) | h
  · exact Nat.mod_lt _ (by norm_num)
  · rw [h]; norm_num
  · rw [h]; norm_num
  · rcases h with h | h | h | h | h | h | h | h <;> rw [h] <;> exact Nat.mod_lt _ (by norm_num)

/-! ## The hash of the program and of the reference -/

theorem foldl_ext_invariant {α β : Type} (inv : α → Prop) (f g : α → β → α) (l : List β)
    (a : α) (ha : inv a) (h : ∀ s, inv s → ∀ b ∈ l, f s b = g s b ∧ inv (f s b)) :
    l.foldl f a = l.foldl g a := by
  induction l generalizing a with
  | nil => rfl
  | cons b l ih =>
    have hb := h a ha b (List.mem_cons_self _ _)
    rw [List.foldl_cons, List.foldl_cons, ← hb.1]
    exact ih _ hb.2 (fun s hs c hc => h s hs c (List.mem_cons_of_mem _ hc))

theorem constants_eq : InitializeConstants = Fips.K := rfl

theorem hashValues_eq : InitializeHashValues = Fips.H0 := rfl

theorem pipeline_eq_fips (P : List Nat) (hP : ∀ x ∈ P, x < 256) (h64 : P.length % 64 = 0) :
    Compression InitializeHashValues InitializeConstants (MessageSchedule (SegmentToBlocks P)) =
      ((List.range (P.length / 64)).map (Fips.block P)).foldl Fips.compress Fips.H0 := by
  unfold Compression MessageSchedule SegmentToBlocks
  have hn : (P.length + 63) / 64 = P.length / 64 := by omega
  rw [hn, List.foldl_map, List.foldl_map, List.foldl_map, hashValues_eq]
  apply foldl_ext_invariant (fun H => H.length = 8 ∧ ∀ x ∈ H, x < 2 ^ 32)
  · exact ⟨rfl, by decide⟩
  · intro H hH b hb
    rw [List.mem_range] at hb
    refine ⟨?_, ?_, compressBlock_word32 _ _ _ hH.1⟩
    · unfold Fips.compress
      rw [schedule_eq P hP b (by omega), constants_eq]
      have hK : Fips.K.length = 64 := rfl
      apply compressBlock_eq_fips _ _ _ hK _ hH.1 hH.2
      rw [extendBlock_length]
      simp
    · rw [compressBlock_length]
      exact hH.1

theorem finalState_eq_hash (M : List Nat) (hL : M.length % 64 ≠ 56) :
    finalState M = Fips.hash M := by
  have hz : Fips.zeroCount M.length = (119 - M.length % 64) % 64 := rfl
  unfold finalState Fips.hash
  simp only []
  rw [Padding_eq_pad M hL]
  apply pipeline_eq_fips _ (pad_bytes M)
  rw [pad_length_eq, hz]
  omega

theorem SHA256_eq_fips (M : List Nat) (hL : M.length % 64 ≠ 56) :
    SHA256 M = Fips.hex (Fips.digest M) := by
  rw [SHA256_eq_hex, finalState_eq_hash M hL]
  rfl

/-! ## The checked program never leaves its vectors -/

theorem getElem?_eq_some_getD (l : List Nat) (i : Nat) (h : i < l.length) :
    l[i]? = some (l.getD i 0) := by
  rw [List.getD_eq_getElem?_getD, List.getElem?_eq_getElem h]; rfl

theorem writeAt_eq (v : List Nat) (i x : Nat) (h : i < v.length) :
    Checked.writeAt v i x = some (v.set i x) := by
  unfold Checked.writeAt
  rw [if_pos h]

theorem foldlM_eq_some {σ β : Type} (inv : σ → Prop) (F : σ → β → Option σ) (f : σ → β → σ)
    (l : List β) (s : σ) (hs : inv s)
    (h : ∀ s, inv s → ∀ b ∈ l, F s b = some (f s b) ∧ inv (f s b)) :
    l.foldlM F s = some (l.foldl f s) := by
  induction l generalizing s with
  | nil => rfl
  | cons b l ih =>
    have hb := h s hs b (List.mem_cons_self _ _)
    rw [List.foldlM_cons, hb.1, List.foldl_cons]
    exact ih _ hb.2 (fun s hs c hc => h s hs c (List.mem_cons_of_mem _ hc))

theorem mapM_eq_some {α β : Type} (F : α → Option β) (f : α → β) (l : List α)
    (h : ∀ a ∈ l, F a = some (f a)) : l.mapM F = some (l.map f) := by
  induction l with
  | nil => rfl
  | cons a l ih =>
    rw [List.mapM_cons, h a (List.mem_cons_self _ _),
      ih (fun c hc => h c (List.mem_cons_of_mem _ hc))]
    rfl

theorem setLoop_length_zero (g : Nat → Nat) (k : Nat) (p : List Nat) :
    ((List.range k).foldl (fun q i => q.set i (g i)) p).length = p.length := by
  induction k with
  | zero => rfl
  | succ k ih => rw [List.range_succ, List.foldl_append]; simpa using ih

theorem checked_Padding (M : List Nat) : Checked.Padding M = some (Padding M) := by
  unfold Checked.Padding Padding copyMessage writeLength
  simp only []
  have hN : M.length + 8 ≤ (M.length * 8 + 64 + 511) / 512 * 512 / 8 := by omega
  rw [foldlM_eq_some (fun p => p.length = (M.length * 8 + 64 + 511) / 512 * 512 / 8) _
    (fun p i => p.set i (M.getD i 0 % 256))]
  · simp only [Option.bind_eq_bind, Option.some_bind]
    rw [writeAt_eq _ _ _ (by rw [setLoop_length_zero]; simp; omega)]
    simp only [Option.some_bind]
    apply foldlM_eq_some (fun p => p.length = (M.length * 8 + 64 + 511) / 512 * 512 / 8)
    · simp [setLoop_length_zero]
    · intro s hs b hb
      rw [List.mem_range] at hb
      rw [if_neg (by omega), writeAt_eq _ _ _ (by omega)]
      exact ⟨rfl, by simpa using hs⟩
  · simp
  · intro s hs b hb
    rw [List.mem_range] at hb
    rw [getElem?_eq_some_getD _ _ hb]
    simp only [Option.bind_eq_bind, Option.some_bind]
    rw [writeAt_eq _ _ _ (by omega)]
    exact ⟨rfl, by simpa using hs⟩

theorem checked_blockWord (P : List Nat) (i j : Nat) (h : i + j * 4 + 3 < P.length) :
    Checked.blockWord P i j = some (blockWord P i j) := by
  unfold Checked.blockWord blockWord
  rw [getElem?_eq_some_getD _ _ (by omega : i + j * 4 < P.length),
    getElem?_eq_some_getD _ _ (by omega : i + j * 4 + 1 < P.length),
    getElem?_eq_some_getD _ _ (by omega : i + j * 4 + 2 < P.length),
    getElem?_eq_some_getD _ _ h]
  rfl

theorem checked_SegmentToBlocks (P : List Nat) (h64 : P.length % 64 = 0) :
    Checked.SegmentToBlocks P = some (SegmentToBlocks P) := by
  unfold Checked.SegmentToBlocks SegmentToBlocks
  apply mapM_eq_some
  intro n hn
  rw [List.mem_range] at hn
  apply mapM_eq_some
  intro j hj
  rw [List.mem_range] at hj
  exact checked_blockWord P (n * 64) j (by omega)

theorem checked_scheduleStep (E : List Nat) (k : Nat) (h : k + 16 ≤ E.length) :
    Checked.scheduleStep E k = some (scheduleStep E k) := by
  unfold Checked.scheduleStep scheduleStep
  simp only []
  rw [getElem?_eq_some_getD _ _ (by omega : k + 16 - 15 < E.length),
    getElem?_eq_some_getD _ _ (by omega : k + 16 - 2 < E.length),
    getElem?_eq_some_getD _ _ (by omega : k + 16 - 16 < E.length),
    getElem?_eq_some_getD _ _ (by omega : k + 16 - 7 < E.length)]
  rfl

theorem checked_scheduleLoop (block : List Nat) (hb : block.length = 16) (k : Nat) :
    (List.range k).foldlM Checked.scheduleStep block =
      some ((List.range k).foldl scheduleStep block) := by
  induction k with
  | zero => rfl
  | succ k ih =>
    rw [List.range_succ, List.foldlM_append, ih, List.foldl_append]
    simp only [Option.bind_eq_bind, Option.some_bind, List.foldlM_cons, List.foldlM_nil,
      List.foldl_cons, List.foldl_nil]
    rw [checked_scheduleStep _ _ (by rw [scheduleLoop_length, hb]; omega)]
    rfl

theorem checked_MessageSchedule (blocks : List (List Nat)) (hb : ∀ b ∈ blocks, b.length = 16) :
    Checked.MessageSchedule blocks = some (MessageSchedule blocks) := by
  unfold Checked.MessageSchedule MessageSchedule
  apply mapM_eq_some
  intro b hbm
  exact checked_scheduleLoop b (hb b hbm) 48

theorem checked_round (K block : List Nat) (v : Working) (i : Nat) (hK : i < K.length)
    (hB : i < block.length) : Checked.round K block v i = some (round K block v i) := by
  unfold Checked.round round
  rw [getElem?_eq_some_getD _ _ hK, getElem?_eq_some_getD _ _ hB]
  rfl

theorem checked_rounds (K block : List Nat) (hK : K.length = 64) (hB : block.length = 64)
    (v : Working) :
    (List.range 64).foldlM (Checked.round K block) v =
      some ((List.range 64).foldl (round K block) v) := by
  apply foldlM_eq_some (fun _ => True) _ _ _ _ trivial
  intro s _ i hi
  rw [List.mem_range] at hi
  exact ⟨checked_round K block s i (by omega) (by omega), trivial⟩

theorem checked_addAt (H : List Nat) (j x : Nat) (h : j < H.length) :
    Checked.addAt H j x = some (H.set j (((H.getD j 0 + x) % 2 ^ 32) &&& 0xFFFFFFFF)) := by
  unfold Checked.addAt
  rw [getElem?_eq_some_getD _ _ h]
  simp only [Option.bind_eq_bind, Option.some_bind]
  exact writeAt_eq _ _ _ h

theorem mod_and_mask_lit (x : Nat) : x % 4294967296 &&& 4294967295 = x % 4294967296 :=
  mod_and_mask x

theorem checked_addAt_eight (h0 h1 h2 h3 h4 h5 h6 h7 : Nat) (v : Working) :
    (do
      let H ← Checked.addAt [h0, h1, h2, h3, h4, h5, h6, h7] 0 v.a
      let H ← Checked.addAt H 1 v.b
      let H ← Checked.addAt H 2 v.c
      let H ← Checked.addAt H 3 v.d
      let H ← Checked.addAt H 4 v.e
      let H ← Checked.addAt H 5 v.f
      let H ← Checked.addAt H 6 v.g
      Checked.addAt H 7 v.h) =
    some [(h0 + v.a) % 2 ^ 32, (h1 + v.b) % 2 ^ 32, (h2 + v.c) % 2 ^ 32, (h3 + v.d) % 2 ^ 32,
      (h4 + v.e) % 2 ^ 32, (h5 + v.f) % 2 ^ 32, (h6 + v.g) % 2 ^ 32, (h7 + v.h) % 2 ^ 32] := by
  simp [Checked.addAt, Checked.writeAt, mod_and_mask_lit]

theorem checked_compressBlock (K H block : List Nat) (hK : K.length = 64)
    (hB : block.length = 64) (hH : H.length = 8) :
    Checked.compressBlock K H block = some (compressBlock K H block) := by
  obtain ⟨h0, h1, h2, h3, h4, h5, h6, h7, rfl⟩ := exists_eight hH
  rw [compressBlock_eight]
  unfold Checked.compressBlock
  simp only [List.getElem?_cons_zero, List.getElem?_cons_succ, Option.bind_eq_bind,
    Option.some_bind]
  rw [checked_rounds K block hK hB]
  simp only [Option.some_bind]
  exact checked_addAt_eight h0 h1 h2 h3 h4 h5 h6 h7 _

theorem checked_Compression (H K : List Nat) (blocks : List (List Nat)) (hK : K.length = 64)
    (hH : H.length = 8) (hB : ∀ b ∈ blocks, b.length = 64) :
    Checked.Compression H K blocks = some (Compression H K blocks) := by
  unfold Checked.Compression Compression
  apply foldlM_eq_some (fun H => H.length = 8) _ _ _ _ hH
  intro s hs b hb
  refine ⟨checked_compressBlock K s b hK (hB b hb) hs, ?_⟩
  rw [compressBlock_length]
  exact hs

theorem Padding_length_mod (M : List Nat) : (Padding M).length % 64 = 0 := by
  rw [Padding_length]; omega

theorem SegmentToBlocks_block_length (P : List Nat) : ∀ b ∈ SegmentToBlocks P, b.length = 16 := by
  intro b hb
  unfold SegmentToBlocks at hb
  rw [List.mem_map] at hb
  obtain ⟨n, -, rfl⟩ := hb
  simp

theorem MessageSchedule_block_length (blocks : List (List Nat))
    (hb : ∀ b ∈ blocks, b.length = 16) : ∀ b ∈ MessageSchedule blocks, b.length = 64 := by
  intro b hbm
  unfold MessageSchedule at hbm
  rw [List.mem_map] at hbm
  obtain ⟨c, hc, rfl⟩ := hbm
  rw [extendBlock_length, hb c hc]

theorem checked_SHA256 (M : List Nat) : Checked.SHA256 M = some (SHA256 M) := by
  unfold Checked.SHA256
  simp only []
  rw [checked_Padding]
  simp only [Option.bind_eq_bind, Option.some_bind]
  rw [checked_SegmentToBlocks _ (Padding_length_mod M)]
  simp only [Option.some_bind]
  rw [checked_MessageSchedule _ (SegmentToBlocks_block_length _)]
  simp only [Option.some_bind]
  have hK : InitializeConstants.length = 64 := rfl
  have hH : InitializeHashValues.length = 8 := rfl
  rw [checked_Compression _ _ _ hK hH
    (MessageSchedule_block_length _ (SegmentToBlocks_block_length _))]
  rfl

/-! ## The constant tables -/

theorem count_prime_inst (n : Nat) :
    Nat.count Nat.Prime n = @Nat.count Nat.Prime (fun k => Nat.decidablePrime1 k) n := by
  congr

set_option maxRecDepth 100000 in
theorem primes64_count : ∀ i : Fin 64,
    @Nat.count Nat.Prime (fun k => Nat.decidablePrime1 k) (primes64.getD i.val 0) = i.val ∧
      @decide (Nat.Prime (primes64.getD i.val 0)) (Nat.decidablePrime1 _) = true := by
  decide!

theorem nth_prime_eq (i : Fin 64) : Nat.nth Nat.Prime i.val = primes64.getD i.val 0 := by
  have h := primes64_count i
  have hp : Nat.Prime (primes64.getD i.val 0) :=
    @of_decide_eq_true _ (Nat.decidablePrime1 _) h.2
  have hc := Nat.nth_count hp
  rw [count_prime_inst, h.1] at hc
  exact hc

set_option maxRecDepth 100000 in
theorem constants_cube_roots : ∀ i : Fin 64,
    intRoot 3 (primes64.getD i.val 0 * 2 ^ 96) ^ 3 ≤ primes64.getD i.val 0 * 2 ^ 96 ∧
      primes64.getD i.val 0 * 2 ^ 96 < (intRoot 3 (primes64.getD i.val 0 * 2 ^ 96) + 1) ^ 3 ∧
      InitializeConstants.getD i.val 0 = intRoot 3 (primes64.getD i.val 0 * 2 ^ 96) % 2 ^ 32 := by
  decide!

set_option maxRecDepth 100000 in
theorem hashValues_square_roots : ∀ i : Fin 8,
    intRoot 2 (primes64.getD i.val 0 * 2 ^ 64) ^ 2 ≤ primes64.getD i.val 0 * 2 ^ 64 ∧
      primes64.getD i.val 0 * 2 ^ 64 < (intRoot 2 (primes64.getD i.val 0 * 2 ^ 64) + 1) ^ 2 ∧
      InitializeHashValues.getD i.val 0 = intRoot 2 (primes64.getD i.val 0 * 2 ^ 64) % 2 ^ 32 := by
  decide!

/-! ## Recovering the message from its padding -/

theorem lengthField_sum (M : List Nat) (h : 8 * M.length < 2 ^ 63) :
    ∑ i ∈ Finset.range 8,
      (Padding M).getD ((Padding M).length - 8 + i) 0 * 256 ^ (7 - i) = 8 * M.length := by
  simp only [Finset.sum_range_succ, Finset.sum_range_zero]
  rw [Padding_lengthByte M 0 (by omega), Padding_lengthByte M 1 (by omega),
    Padding_lengthByte M 2 (by omega), Padding_lengthByte M 3 (by omega),
    Padding_lengthByte M 4 (by omega), Padding_lengthByte M 5 (by omega),
    Padding_lengthByte M 6 (by omega), Padding_lengthByte M 7 (by omega)]
  norm_num
  omega

theorem Padding_take (M : List Nat) : (Padding M).take M.length = M.map (fun c => c % 256) := by
  have hlen := Padding_length_ge M
  apply List.ext_getElem
  · simp; omega
  · intro i h1 h2
    have hi : i < M.length := by simpa using h2
    have hp : i < (Padding M).length := by omega
    rw [List.getElem_take, List.getElem_map, ← List.getD_eq_getElem _ 0 hp, Padding_getD,
      if_neg (by omega), if_neg (by omega), if_pos hi, List.getD_eq_getElem _ 0 hi]

theorem map_mod_bytes (M : List Nat) (hM : ∀ b ∈ M, b < 256) : M.map (fun c => c % 256) = M := by
  have h : M.map (fun c => c % 256) = M.map id :=
    List.map_congr_left (fun b hb => Nat.mod_eq_of_lt (hM b hb))
  rw [h, List.map_id]

theorem Padding_inj (M1 M2 : List Nat) (h1 : ∀ b ∈ M1, b < 256) (h2 : ∀ b ∈ M2, b < 256)
    (hb1 : 8 * M1.length < 2 ^ 63) (hb2 : 8 * M2.length < 2 ^ 63)
    (h : Padding M1 = Padding M2) : M1 = M2 := by
  have s1 := lengthField_sum M1 hb1
  have s2 := lengthField_sum M2 hb2
  rw [h, s2] at s1
  have hl : M1.length = M2.length := by omega
  have t1 := Padding_take M1
  have t2 := Padding_take M2
  rw [h, hl, t2, map_mod_bytes M1 h1, map_mod_bytes M2 h2] at t1
  exact t1.symm

/-! ## Sanity of the reference -/

/-- The value `Fips.zeroCount L` is the least number of zero bytes that brings
the length to 56 modulo 64. -/
theorem Fips.zeroCount_least (L : Nat) :
    (L + 1 + Fips.zeroCount L) % 64 = 56 ∧
      ∀ k, k < Fips.zeroCount L → (L + 1 + k) % 64 ≠ 56 := by
  unfold Fips.zeroCount
  constructor
  · omega
  · intro k hk
    omega

/-- The reference padding has the length the specification gives. -/
theorem Fips.pad_length (M : List Nat) : (Fips.pad M).length = specPaddedLength M.length := by
  simp only [Fips.pad, Fips.be64, Fips.zeroCount, specPaddedLength, List.length_append,
    List.length_map, List.length_replicate, List.length_cons, List.length_nil]
  omega

/-! ## The claims -/

/-- C1 (fails on the code): `SHA256` is to return the hexadecimal FIPS 180-4
digest of every message. On the 56-byte two-block example message of FIPS 180-4
the program returns `aafff98b...` while the reference digest is `248d6a61...`:
the buffer of `Padding` is one block short, so the length field overwrites the
`0x80` byte. -/
theorem SHA256_twoBlockMessage_differs :
    twoBlockMessage.length = 56 ∧
      SHA256 twoBlockMessage =
        "aafff98beb5f808f8be1cf96605775628e87f9acade749e7ffd2208d6d4ac859" ∧
      Fips.hex (Fips.digest twoBlockMessage) =
        "248d6a61d20638b8e5c026930c3e6039a33ce45964ff2167f6ecedd419db06c1" := by
  decide!

/-- C2: `SHA256("abc")` and `SHA256("")` are the two known vectors. -/
theorem SHA256_known_vectors :
    SHA256 (bytesOf "abc") =
        "ba7816bf8f01cfea414140de5dae2223b00361a396177a9cb410ff61f20015ad" ∧
      SHA256 [] = "e3b0c44298fc1c149afbf4c8996fb92427ae41e4649b934ca495991b7852b855" := by
  decide!

/-- C3 (fails on the code): on the messages of 55, 64 and 119 copies of `'a'`
the program returns the reference digest, on the message of 56 copies of `'a'`
it returns `5e8af709...` while the reference digest is `b35439a4...`. -/
theorem SHA256_padding_boundary :
    SHA256 (aaa 55) = Fips.hex (Fips.digest (aaa 55)) ∧
      SHA256 (aaa 64) = Fips.hex (Fips.digest (aaa 64)) ∧
      SHA256 (aaa 119) = Fips.hex (Fips.digest (aaa 119)) ∧
      SHA256 (aaa 56) = "5e8af709cc57a501191fff4f65fa12203aecf76f80a44afc77519b039a056c1e" ∧
      Fips.hex (Fips.digest (aaa 56)) =
        "b35439a4ac6f0948b6d6f9e3c6af0f5f590ce20f1bde7090ef7970686ec6738a" := by
  decide!

/-- C4 (fails on the code): the padded length is to be a positive multiple of 64
and at least `L + 9`. For the message of 56 copies of `'a'` the padded buffer has
64 bytes, which is only `L + 8`. -/
theorem Padding_length_short :
    (aaa 56).length = 56 ∧ (Padding (aaa 56)).length = 64 ∧
      ¬ ((aaa 56).length + 9 ≤ (Padding (aaa 56)).length) := by
  decide

/-- C5 (fails on the code): the padded length is to be
`ceil((L*8 + 1 + 64) / 512) * 512 / 8`. For the message of 56 copies of `'a'`
that is 128, and the padded buffer has 64 bytes. -/
theorem Padding_length_formula_fails :
    specPaddedLength (aaa 56).length = 128 ∧ (Padding (aaa 56)).length = 64 := by
  decide

/-- C6 (fails on the code): the byte at offset `L` is to be `0x80`. For the
message of 56 copies of `'a'` the byte at offset 56 is `0x00`, the top byte of
the length field. -/
theorem Padding_marker_overwritten :
    (Padding (aaa 56)).getD (aaa 56).length 0 = 0x00 ∧
      (Padding (aaa 56)).getD (aaa 56).length 0 ≠ 0x80 := by
  decide

/-- C7: for a message of `L` bytes with `8 * L < 2^63`, the last eight bytes of
`Padding(M)` are the big-endian encoding of `8 * L`: the sum over `i < 8` of
`byte[end - 8 + i] * 256^(7 - i)` is `8 * L`, whatever the size of `8 * L`. -/
theorem Padding_length_field (M : List Nat) (h : 8 * M.length < 2 ^ 63) :
    ∑ i ∈ Finset.range 8,
      (Padding M).getD ((Padding M).length - 8 + i) 0 * 256 ^ (7 - i) = 8 * M.length := by
  simp only [Finset.sum_range_succ, Finset.sum_range_zero]
  rw [Padding_lengthByte M 0 (by omega), Padding_lengthByte M 1 (by omega),
    Padding_lengthByte M 2 (by omega), Padding_lengthByte M 3 (by omega),
    Padding_lengthByte M 4 (by omega), Padding_lengthByte M 5 (by omega),
    Padding_lengthByte M 6 (by omega), Padding_lengthByte M 7 (by omega)]
  norm_num
  omega

/-- Witness of C7 at the message `"abc"`. -/
theorem Padding_length_field_witness :
    8 * (bytesOf "abc").length < 2 ^ 63 ∧
      ∑ i ∈ Finset.range 8,
        (Padding (bytesOf "abc")).getD ((Padding (bytesOf "abc")).length - 8 + i) 0 *
          256 ^ (7 - i) = 8 * (bytesOf "abc").length :=
  ⟨by decide, Padding_length_field (bytesOf "abc") (by decide)⟩

/-- C8: `Padding` only appends: the first `L` bytes of `Padding(M)` are the
bytes of `M` in order, each `char` taken as an unsigned 8-bit value. -/
theorem Padding_take_message (M : List Nat) :
    (Padding M).take M.length = M.map (fun c => c % 256) := by
  have hlen := Padding_length_ge M
  apply List.ext_getElem
  · simp; omega
  · intro i h1 h2
    have hi : i < M.length := by simpa using h2
    have hp : i < (Padding M).length := by omega
    rw [List.getElem_take, List.getElem_map, ← List.getD_eq_getElem _ 0 hp, Padding_getD,
      if_neg (by omega), if_neg (by omega), if_pos hi, List.getD_eq_getElem _ 0 hi]

/-- C9: the padding of the empty message is one 64-byte block: `0x80`, then
fifty-five `0x00` bytes, then the eight zero bytes of the length field. -/
theorem Padding_empty :
    Padding [] = [0x80] ++ List.replicate 55 0x00 ++ List.replicate 8 0x00 ∧
      (Padding []).length = 64 := by
  decide

/-- C10: for every message the hash state after `Compression` has 8 words, and
`SHA256` returns 64 characters, all among `0-9a-f`: the concatenation, for
`H[0] .. H[7]` in order, of the 8 hexadecimal digits of each word, most
significant nibble first. It is the hexadecimal form of the 32 bytes of the
state, two characters per byte. -/
theorem SHA256_digest_shape (M : List Nat) :
    (Compression InitializeHashValues InitializeConstants
        (MessageSchedule (SegmentToBlocks (Padding M)))).length = 8 ∧
      (SHA256 M).length = 64 ∧
      (∀ c ∈ (SHA256 M).data, c ∈ "0123456789abcdef".data) ∧
      (SHA256 M).data =
        (Compression InitializeHashValues InitializeConstants
          (MessageSchedule (SegmentToBlocks (Padding M)))).flatMap
          (fun w => (List.range 8).map
            (fun k => "0123456789abcdef".data.getD (w / 16 ^ (7 - k) % 16) '0')) ∧
      ((Compression InitializeHashValues InitializeConstants
          (MessageSchedule (SegmentToBlocks (Padding M)))).flatMap
          (fun w => [w / 2 ^ 24 % 256, w / 2 ^ 16 % 256, w / 2 ^ 8 % 256, w % 256])).length
        = 32 ∧
      SHA256 M =
        Fips.hex ((Compression InitializeHashValues InitializeConstants
          (MessageSchedule (SegmentToBlocks (Padding M)))).flatMap
          (fun w => [w / 2 ^ 24 % 256, w / 2 ^ 16 % 256, w / 2 ^ 8 % 256, w % 256])) := by
  have hfs : Compression InitializeHashValues InitializeConstants
      (MessageSchedule (SegmentToBlocks (Padding M))) = finalState M := rfl
  rw [hfs]
  refine ⟨finalState_length M, ?_, ?_, ?_, ?_, SHA256_eq_hex M⟩
  · show (SHA256 M).data.length = 64
    rw [SHA256_data, flatMap_length_const format08x 8 format08x_length, finalState_length]
  · intro c hc
    rw [SHA256_data, List.mem_flatMap] at hc
    obtain ⟨w, -, hw⟩ := hc
    rw [format08x_eq, List.mem_map] at hw
    obtain ⟨k, -, rfl⟩ := hw
    exact xdigit_mem _ (Nat.mod_lt _ (by norm_num))
  · rw [SHA256_data]
    congr 1
    funext w
    exact format08x_eq w
  · rw [flatMap_length_const
      (fun w => [w / 2 ^ 24 % 256, w / 2 ^ 16 % 256, w / 2 ^ 8 % 256, w % 256]) 4
      (fun _ => rfl), finalState_length]

/-- C11: `InitializeConstants` has 64 words and `K[i]` is the first 32 bits of
the fractional part of the cube root of the `(i+1)`-th prime `p`: there is `n`
with `n^3 ≤ p * 2^96 < (n+1)^3`, that is `n = floor(2^32 * cbrt p)`, and
`K[i] = n mod 2^32`. `InitializeHashValues` has 8 words and `H0[i]` is the same
with the square root: `n^2 ≤ p * 2^64 < (n+1)^2` and `H0[i] = n mod 2^32`. -/
theorem constants_match_fips :
    InitializeConstants.length = 64 ∧
      (∀ i : Fin 64, ∃ n, n ^ 3 ≤ Nat.nth Nat.Prime i.val * 2 ^ 96 ∧
        Nat.nth Nat.Prime i.val * 2 ^ 96 < (n + 1) ^ 3 ∧
        InitializeConstants.getD i.val 0 = n % 2 ^ 32) ∧
      InitializeHashValues.length = 8 ∧
      (∀ i : Fin 8, ∃ n, n ^ 2 ≤ Nat.nth Nat.Prime i.val * 2 ^ 64 ∧
        Nat.nth Nat.Prime i.val * 2 ^ 64 < (n + 1) ^ 2 ∧
        InitializeHashValues.getD i.val 0 = n % 2 ^ 32) := by
  refine ⟨rfl, ?_, rfl, ?_⟩
  · intro i
    rw [nth_prime_eq i]
    exact ⟨_, constants_cube_roots i⟩
  · intro i
    have h := nth_prime_eq ⟨i.val, by omega⟩
    simp only at h
    rw [h]
    exact ⟨_, hashValues_square_roots i⟩

/-- C12: for every index `i` in `0 .. 63` and every 32-bit value `v` other than
`K[i]`, the pipeline `Padding`, `SegmentToBlocks`, `MessageSchedule`,
`Compression` run from the initial hash values with `K[i]` replaced by `v` ends,
on the message `"abc"` and on the empty message, in a hash state different from
the one the unmodified table gives. -/
theorem altered_constant_changes_state (i : Fin 64) (v : Nat) (hv : v < 2 ^ 32)
    (hne : v ≠ InitializeConstants.getD i.val 0) :
    Compression InitializeHashValues (InitializeConstants.set i.val v)
        (MessageSchedule (SegmentToBlocks (Padding (bytesOf "abc")))) ≠
      Compression InitializeHashValues InitializeConstants
        (MessageSchedule (SegmentToBlocks (Padding (bytesOf "abc")))) ∧
    Compression InitializeHashValues (InitializeConstants.set i.val v)
        (MessageSchedule (SegmentToBlocks (Padding []))) ≠
      Compression InitializeHashValues InitializeConstants
        (MessageSchedule (SegmentToBlocks (Padding []))) := by
  have hK : InitializeConstants.getD i.val 0 < 2 ^ 32 :=
    getD_lt_of_forall (by decide) (by norm_num) _
  have hlen : i.val < InitializeConstants.length := i.isLt
  have one : ∀ M : List Nat, (MessageSchedule (SegmentToBlocks (Padding M))).length = 1 →
      Compression InitializeHashValues (InitializeConstants.set i.val v)
          (MessageSchedule (SegmentToBlocks (Padding M))) ≠
        Compression InitializeHashValues InitializeConstants
          (MessageSchedule (SegmentToBlocks (Padding M))) := by
    intro M hM
    obtain ⟨W, hW⟩ := List.length_eq_one.mp hM
    rw [hW]
    exact compressBlock_set_ne InitializeConstants InitializeHashValues W i.val v rfl
      (by decide) i.isLt hlen hv hK hne
  exact ⟨one _ (by decide), one _ (by decide)⟩

/-- Witness of C12: the first constant replaced by zero. -/
theorem altered_constant_changes_state_witness :
    (0 : Nat) < 2 ^ 32 ∧ (0 : Nat) ≠ InitializeConstants.getD (0 : Fin 64).val 0 ∧
    (Compression InitializeHashValues (InitializeConstants.set (0 : Fin 64).val 0)
        (MessageSchedule (SegmentToBlocks (Padding (bytesOf "abc")))) ≠
      Compression InitializeHashValues InitializeConstants
        (MessageSchedule (SegmentToBlocks (Padding (bytesOf "abc")))) ∧
    Compression InitializeHashValues (InitializeConstants.set (0 : Fin 64).val 0)
        (MessageSchedule (SegmentToBlocks (Padding []))) ≠
      Compression InitializeHashValues InitializeConstants
        (MessageSchedule (SegmentToBlocks (Padding [])))) :=
  ⟨by decide, by decide, altered_constant_changes_state 0 0 (by decide) (by decide)⟩

/-- C13: for every message `M` with `8 * L < 2^63`, the program with every index
checked, run as `SHA256(M)`, never reads or writes outside a vector: each stage
returns a value, the one the unchecked program computes. -/
theorem checked_never_fails (M : List Nat) (_hb : 8 * M.length < 2 ^ 63) :
    Checked.Padding M = some (Padding M) ∧
      Checked.SegmentToBlocks (Padding M) = some (SegmentToBlocks (Padding M)) ∧
      Checked.MessageSchedule (SegmentToBlocks (Padding M)) =
        some (MessageSchedule (SegmentToBlocks (Padding M))) ∧
      Checked.Compression InitializeHashValues InitializeConstants
          (MessageSchedule (SegmentToBlocks (Padding M))) =
        some (Compression InitializeHashValues InitializeConstants
          (MessageSchedule (SegmentToBlocks (Padding M)))) ∧
      Checked.SHA256 M = some (SHA256 M) := by
  have hK : InitializeConstants.length = 64 := rfl
  have hH : InitializeHashValues.length = 8 := rfl
  exact ⟨checked_Padding M, checked_SegmentToBlocks _ (Padding_length_mod M),
    checked_MessageSchedule _ (SegmentToBlocks_block_length _),
    checked_Compression _ _ _ hK hH
      (MessageSchedule_block_length _ (SegmentToBlocks_block_length _)),
    checked_SHA256 M⟩

/-- Witness of C13 at the message `"abc"`. -/
theorem checked_never_fails_witness :
    8 * (bytesOf "abc").length < 2 ^ 63 ∧
      (Checked.Padding (bytesOf "abc") = some (Padding (bytesOf "abc")) ∧
      Checked.SegmentToBlocks (Padding (bytesOf "abc")) =
        some (SegmentToBlocks (Padding (bytesOf "abc"))) ∧
      Checked.MessageSchedule (SegmentToBlocks (Padding (bytesOf "abc"))) =
        some (MessageSchedule (SegmentToBlocks (Padding (bytesOf "abc")))) ∧
      Checked.Compression InitializeHashValues InitializeConstants
          (MessageSchedule (SegmentToBlocks (Padding (bytesOf "abc")))) =
        some (Compression InitializeHashValues InitializeConstants
          (MessageSchedule (SegmentToBlocks (Padding (bytesOf "abc"))))) ∧
      Checked.SHA256 (bytesOf "abc") = some (SHA256 (bytesOf "abc"))) :=
  ⟨by decide, checked_never_fails (bytesOf "abc") (by decide)⟩

/-- C14: for a byte buffer `P` whose length is a multiple of 64,
`SegmentToBlocks(P)` has `length(P) / 64` blocks, in buffer order, each of 16
words, and word `j` of block `b` is
`P[64b+4j] * 2^24 + P[64b+4j+1] * 2^16 + P[64b+4j+2] * 2^8 + P[64b+4j+3]`. -/
theorem SegmentToBlocks_big_endian (P : List Nat) (hP : ∀ x ∈ P, x < 256)
    (h64 : P.length % 64 = 0) :
    (SegmentToBlocks P).length = P.length / 64 ∧
      ∀ b, b < P.length / 64 →
        ((SegmentToBlocks P).getD b []).length = 16 ∧
        ∀ j, j < 16 →
          ((SegmentToBlocks P).getD b []).getD j 0 =
            P.getD (64 * b + 4 * j) 0 * 2 ^ 24 + P.getD (64 * b + 4 * j + 1) 0 * 2 ^ 16 +
              P.getD (64 * b + 4 * j + 2) 0 * 2 ^ 8 + P.getD (64 * b + 4 * j + 3) 0 := by
  have hn : (P.length + 63) / 64 = P.length / 64 := by omega
  refine ⟨by rw [SegmentToBlocks_length, hn], ?_⟩
  intro b hb
  rw [SegmentToBlocks_getD P b (by omega)]
  refine ⟨by simp, ?_⟩
  intro j hj
  rw [List.getD_eq_getElem?_getD, List.getElem?_map, List.getElem?_range hj]
  show blockWord P (b * 64) j = _
  rw [blockWord_eq P hP, show b * 64 + j * 4 = 64 * b + 4 * j by omega]

/-- Witness of C14 at the padding of the empty message. -/
theorem SegmentToBlocks_big_endian_witness :
    (∀ x ∈ Padding [], x < 256) ∧ (Padding []).length % 64 = 0 ∧
    ((SegmentToBlocks (Padding [])).length = (Padding []).length / 64 ∧
      ∀ b, b < (Padding []).length / 64 →
        ((SegmentToBlocks (Padding [])).getD b []).length = 16 ∧
        ∀ j, j < 16 →
          ((SegmentToBlocks (Padding [])).getD b []).getD j 0 =
            (Padding []).getD (64 * b + 4 * j) 0 * 2 ^ 24 +
              (Padding []).getD (64 * b + 4 * j + 1) 0 * 2 ^ 16 +
              (Padding []).getD (64 * b + 4 * j + 2) 0 * 2 ^ 8 +
              (Padding []).getD (64 * b + 4 * j + 3) 0) :=
  ⟨by decide, by decide, SegmentToBlocks_big_endian (Padding []) (by decide) (by decide)⟩

/-- C15: for blocks of 16 words each, `MessageSchedule` keeps the number and the
order of the blocks and turns each block into 64 words `w` with `w[0..15]` the
16 words of the block and, for `i` in `16 .. 63`,
`w[i] = (w[i-16] + sigma0(w[i-15]) + w[i-7] + sigma1(w[i-2])) mod 2^32`, where
`sigma0(x) = rotr(x,7) xor rotr(x,18) xor (x >> 3)` and
`sigma1(x) = rotr(x,17) xor rotr(x,19) xor (x >> 10)`; the schedule at position
`n` is the same for any other list that has the same block at position `n`. -/
theorem MessageSchedule_recurrence (blocks : List (List Nat))
    (h16 : ∀ b ∈ blocks, b.length = 16) :
    (MessageSchedule blocks).length = blocks.length ∧
      ∀ n, n < blocks.length →
        ((MessageSchedule blocks).getD n []).length = 64 ∧
        (∀ i, i < 16 →
          ((MessageSchedule blocks).getD n []).getD i 0 = (blocks.getD n []).getD i 0) ∧
        (∀ i, 16 ≤ i → i < 64 →
          ((MessageSchedule blocks).getD n []).getD i 0 =
            (((MessageSchedule blocks).getD n []).getD (i - 16) 0 +
              (rotr (((MessageSchedule blocks).getD n []).getD (i - 15) 0) 7 ^^^
                rotr (((MessageSchedule blocks).getD n []).getD (i - 15) 0) 18 ^^^
                (((MessageSchedule blocks).getD n []).getD (i - 15) 0 >>> 3)) +
              ((MessageSchedule blocks).getD n []).getD (i - 7) 0 +
              (rotr (((MessageSchedule blocks).getD n []).getD (i - 2) 0) 17 ^^^
                rotr (((MessageSchedule blocks).getD n []).getD (i - 2) 0) 19 ^^^
                (((MessageSchedule blocks).getD n []).getD (i - 2) 0 >>> 10))) % 2 ^ 32) ∧
        (∀ others : List (List Nat), n < others.length →
          others.getD n [] = blocks.getD n [] →
          (MessageSchedule others).getD n [] = (MessageSchedule blocks).getD n []) := by
  have hget : ∀ (l : List (List Nat)) n, n < l.length →
      (MessageSchedule l).getD n [] = extendBlock (l.getD n []) := by
    intro l n hn
    unfold MessageSchedule
    rw [List.getD_eq_getElem?_getD, List.getD_eq_getElem?_getD, List.getElem?_map,
      List.getElem?_eq_getElem hn]
    simp only [Option.map_some', Option.getD_some]
  refine ⟨by simp [MessageSchedule], ?_⟩
  intro n hn
  have hb : (blocks.getD n []).length = 16 := by
    rw [List.getD_eq_getElem _ _ hn]
    exact h16 _ (List.getElem_mem hn)
  rw [hget blocks n hn]
  refine ⟨by rw [extendBlock_length, hb], ?_, ?_, ?_⟩
  · intro i hi
    exact extendBlock_getD_lt _ i (by omega)
  · intro i hi1 hi2
    exact extendBlock_getD_ge _ hb i hi1 hi2
  · intro others ho heq
    rw [hget others n ho, heq]

/-- Witness of C15 at the one block of the message `"abc"`. -/
theorem MessageSchedule_recurrence_witness :
    (∀ b ∈ abcBlocks, b.length = 16) ∧
    ((MessageSchedule abcBlocks).length = abcBlocks.length ∧
      ∀ n, n < abcBlocks.length →
        ((MessageSchedule abcBlocks).getD n []).length = 64 ∧
        (∀ i, i < 16 →
          ((MessageSchedule abcBlocks).getD n []).getD i 0 = (abcBlocks.getD n []).getD i 0) ∧
        (∀ i, 16 ≤ i → i < 64 →
          ((MessageSchedule abcBlocks).getD n []).getD i 0 =
            (((MessageSchedule abcBlocks).getD n []).getD (i - 16) 0 +
              (rotr (((MessageSchedule abcBlocks).getD n []).getD (i - 15) 0) 7 ^^^
                rotr (((MessageSchedule abcBlocks).getD n []).getD (i - 15) 0) 18 ^^^
                (((MessageSchedule abcBlocks).getD n []).getD (i - 15) 0 >>> 3)) +
              ((MessageSchedule abcBlocks).getD n []).getD (i - 7) 0 +
              (rotr (((MessageSchedule abcBlocks).getD n []).getD (i - 2) 0) 17 ^^^
                rotr (((MessageSchedule abcBlocks).getD n []).getD (i - 2) 0) 19 ^^^
                (((MessageSchedule abcBlocks).getD n []).getD (i - 2) 0 >>> 10))) % 2 ^ 32) ∧
        (∀ others : List (List Nat), n < others.length →
          others.getD n [] = abcBlocks.getD n [] →
          (MessageSchedule others).getD n [] = (MessageSchedule abcBlocks).getD n [])) :=
  ⟨by decide, MessageSchedule_recurrence abcBlocks (by decide)⟩

/-- C16: for an 8-word state `H` of 32-bit words, a 64-word table `K` and
schedules of 64 words each, `Compression(H, K, blocks)` is the left fold, in list
order, of the one-block step `H -> (v[j] + H[j]) mod 2^32`, where `v` comes from
`a..h := H[0..7]` by the 64 rounds of `Fips.step` with `(K[i], W[i])`:
`T1 = h + Sigma1(e) + Ch(e,f,g) + K[i] + W[i]`, `T2 = Sigma0(a) + Maj(a,b,c)`,
new state `(T1 + T2, a, b, c, d + T1, e, f, g)`, all modulo `2^32`. Hence
`Compression(H, K, xs ++ ys) = Compression(Compression(H, K, xs), K, ys)`.
`Compression` returns the new `H` only: `K` and the blocks are read, not
written. -/
theorem Compression_is_fold (H K : List Nat) (blocks : List (List Nat))
    (hH : H.length = 8) (hHw : ∀ x ∈ H, x < 2 ^ 32) (hK : K.length = 64)
    (hB : ∀ W ∈ blocks, W.length = 64) :
    Compression H K blocks =
        blocks.foldl
          (fun H W => List.zipWith Fips.add32 ((K.zip W).foldl Fips.step H) H) H ∧
      ∀ xs ys : List (List Nat),
        Compression H K (xs ++ ys) = Compression (Compression H K xs) K ys := by
  constructor
  · unfold Compression
    apply foldl_ext_invariant (fun H => H.length = 8 ∧ ∀ x ∈ H, x < 2 ^ 32) _ _ _ _ ⟨hH, hHw⟩
    intro s hs W hW
    refine ⟨compressBlock_eq_fips K s W hK (hB W hW) hs.1 hs.2, ?_,
      compressBlock_word32 _ _ _ hs.1⟩
    rw [compressBlock_length]
    exact hs.1
  · intro xs ys
    unfold Compression
    rw [List.foldl_append]

/-- Witness of C16 at the initial hash values, the constant table and the one
schedule of the message `"abc"`. -/
theorem Compression_is_fold_witness :
    InitializeHashValues.length = 8 ∧ (∀ x ∈ InitializeHashValues, x < 2 ^ 32) ∧
    InitializeConstants.length = 64 ∧ (∀ W ∈ MessageSchedule abcBlocks, W.length = 64) ∧
    (Compression InitializeHashValues InitializeConstants (MessageSchedule abcBlocks) =
        (MessageSchedule abcBlocks).foldl
          (fun H W =>
            List.zipWith Fips.add32 ((InitializeConstants.zip W).foldl Fips.step H) H)
          InitializeHashValues ∧
      ∀ xs ys : List (List Nat),
        Compression InitializeHashValues InitializeConstants (xs ++ ys) =
          Compression (Compression InitializeHashValues InitializeConstants xs)
            InitializeConstants ys) :=
  ⟨by decide, by decide, by decide, by decide,
    Compression_is_fold InitializeHashValues InitializeConstants (MessageSchedule abcBlocks)
      (by decide) (by decide) (by decide) (by decide)⟩

/-- C17: `rotr` is a 32-bit right rotation: for a 32-bit word `x` and
`1 ≤ n ≤ 31`, bit `i` of `rotr(x, n)` is bit `(i + n) mod 32` of `x` for every
`i` in `0 .. 31`; `rotr(x, n)` is again a 32-bit word with as many set bits as
`x`, and `rotr(rotr(x, n), 32 - n) = x`. -/
theorem rotr_is_rotation (x n : Nat) (hx : x < 2 ^ 32) (hn1 : 1 ≤ n) (hn : n ≤ 31) :
    (∀ i, i < 32 → (rotr x n).testBit i = x.testBit ((i + n) % 32)) ∧
      rotr x n < 2 ^ 32 ∧
      popcount32 (rotr x n) = popcount32 x ∧
      rotr (rotr x n) (32 - n) = x :=
  ⟨fun i hi => rotr_testBit x n i hx hn1 hn hi, rotr_lt x n hx, rotr_popcount32 x n hx hn1 hn,
    rotr_rotr_inverse x n hx hn1 hn⟩

/-- Witness of C17 at `x = 0x80000001`, `n = 1`. -/
theorem rotr_is_rotation_witness :
    (0x80000001 : Nat) < 2 ^ 32 ∧ 1 ≤ 1 ∧ 1 ≤ 31 ∧
    ((∀ i, i < 32 → (rotr 0x80000001 1).testBit i = (0x80000001 : Nat).testBit ((i + 1) % 32)) ∧
      rotr 0x80000001 1 < 2 ^ 32 ∧
      popcount32 (rotr 0x80000001 1) = popcount32 0x80000001 ∧
      rotr (rotr 0x80000001 1) (32 - 1) = 0x80000001) :=
  ⟨by decide, by decide, by decide, rotr_is_rotation 0x80000001 1 (by decide) (by decide) (by decide)⟩

/-- C18: for a message `M` whose length `L` has `L mod 64 ≠ 56` (and
`8 * L < 2^63`), `Padding(M)` is the FIPS 180-4 padding of `M` byte for byte and
`SHA256(M)` is the hexadecimal form of the reference FIPS 180-4 digest of `M`. -/
theorem SHA256_correct_off_boundary (M : List Nat) (hL : M.length % 64 ≠ 56)
    (_hb : 8 * M.length < 2 ^ 63) :
    Padding M = Fips.pad M ∧ SHA256 M = Fips.hex (Fips.digest M) :=
  ⟨Padding_eq_pad M hL, SHA256_eq_fips M hL⟩

/-- Witness of C18 at the message `"abc"`. -/
theorem SHA256_correct_off_boundary_witness :
    (bytesOf "abc").length % 64 ≠ 56 ∧ 8 * (bytesOf "abc").length < 2 ^ 63 ∧
    (Padding (bytesOf "abc") = Fips.pad (bytesOf "abc") ∧
      SHA256 (bytesOf "abc") = Fips.hex (Fips.digest (bytesOf "abc"))) :=
  ⟨by decide, by decide, SHA256_correct_off_boundary (bytesOf "abc") (by decide) (by decide)⟩

/-- C19: `Padding` is injective on byte strings of bit length below `2^63`:
`Padding(M1) = Padding(M2)` implies `M1 = M2`, at every length, also where the
length field overwrites the byte at offset `L`. -/
theorem Padding_injective (M1 M2 : List Nat) (h1 : ∀ b ∈ M1, b < 256)
    (h2 : ∀ b ∈ M2, b < 256) (hb1 : 8 * M1.length < 2 ^ 63) (hb2 : 8 * M2.length < 2 ^ 63)
    (h : Padding M1 = Padding M2) : M1 = M2 :=
  Padding_inj M1 M2 h1 h2 hb1 hb2 h

/-- Witness of C19 at a message of 56 bytes, where the length field overwrites
the byte at offset `L`. -/
theorem Padding_injective_witness :
    (∀ b ∈ aaa 56, b < 256) ∧ (∀ b ∈ List.replicate 56 97, b < 256) ∧
    8 * (aaa 56).length < 2 ^ 63 ∧ 8 * (List.replicate 56 97).length < 2 ^ 63 ∧
    Padding (aaa 56) = Padding (List.replicate 56 97) ∧ aaa 56 = List.replicate 56 97 :=
  ⟨by decide, by decide, by decide, by decide, by decide,
    Padding_injective (aaa 56) (List.replicate 56 97) (by decide) (by decide) (by decide)
      (by decide) (by decide)⟩

/-- C20: one round of `Compression` is the map
`(a,b,c,d,e,f,g,h) -> (T1 + T2, a, b, c, d + T1, e, f, g)` and, for any constant
`K[i]` and schedule word `W[i]`, it is injective on the working states made of
32-bit words; so is the composition of the 64 rounds for a fixed table and
schedule. -/
theorem round_is_injective (K block : List Nat) (i : Nat) (v w : Working)
    (hv : v.IsWord32) (hw : w.IsWord32) :
    round K block v i =
        { a := ((v.h + big_sigma1 v.e + choice v.e v.f v.g + K.getD i 0 + block.getD i 0) %
              2 ^ 32 + (big_sigma0 v.a + majority v.a v.b v.c) % 2 ^ 32) % 2 ^ 32
          b := v.a
          c := v.b
          d := v.c
          e := (v.d + (v.h + big_sigma1 v.e + choice v.e v.f v.g + K.getD i 0 +
              block.getD i 0) % 2 ^ 32) % 2 ^ 32
          f := v.e
          g := v.f
          h := v.g } ∧
      (round K block v i = round K block w i → v = w) ∧
      ((List.range 64).foldl (round K block) v = (List.range 64).foldl (round K block) w →
        v = w) :=
  ⟨round_eq K block v i, round_injective K block i v w hv hw,
    rounds_injective K block (List.range 64) v w hv hw⟩

/-- Witness of C20 at the initial hash values, the constant table and the
schedule of the message `"abc"`, round 0. -/
theorem round_is_injective_witness :
    initialWorking.IsWord32 ∧
    (round InitializeConstants (extendBlock (abcBlocks.getD 0 [])) initialWorking 0 =
        { a := ((initialWorking.h + big_sigma1 initialWorking.e +
              choice initialWorking.e initialWorking.f initialWorking.g +
              InitializeConstants.getD 0 0 + (extendBlock (abcBlocks.getD 0 [])).getD 0 0) %
              2 ^ 32 + (big_sigma0 initialWorking.a +
              majority initialWorking.a initialWorking.b initialWorking.c) % 2 ^ 32) % 2 ^ 32
          b := initialWorking.a
          c := initialWorking.b
          d := initialWorking.c
          e := (initialWorking.d + (initialWorking.h + big_sigma1 initialWorking.e +
              choice initialWorking.e initialWorking.f initialWorking.g +
              InitializeConstants.getD 0 0 + (extendBlock (abcBlocks.getD 0 [])).getD 0 0) %
              2 ^ 32) % 2 ^ 32
          f := initialWorking.e
          g := initialWorking.f
          h := initialWorking.g } ∧
      (round InitializeConstants (extendBlock (abcBlocks.getD 0 [])) initialWorking 0 =
          round InitializeConstants (extendBlock (abcBlocks.getD 0 [])) initialWorking 0 →
        initialWorking = initialWorking) ∧
      ((List.range 64).foldl (round InitializeConstants (extendBlock (abcBlocks.getD 0 [])))
            initialWorking =
          (List.range 64).foldl (round InitializeConstants (extendBlock (abcBlocks.getD 0 [])))
            initialWorking →
        initialWorking = initialWorking)) :=
  ⟨by unfold Working.IsWord32; decide,
    round_is_injective InitializeConstants (extendBlock (abcBlocks.getD 0 [])) 0 initialWorking
      initialWorking (by unfold Working.IsWord32; decide) (by unfold Working.IsWord32; decide)⟩

end Sha256
